import Mathlib

/-!
# Verification of the libzmq radix tree (`src/radix_tree.hpp`)

The repository ships the declarations of `zmq::radix_tree` (a compressed
prefix tree over byte strings, with per-key reference counts) in
`src/radix_tree.hpp`; the implementation file is not part of the sources,
so the operational behaviour of `add` / `rm` / `check` / `apply` is
modelled from the specification (sections 3, 4.1-4.5), faithful to its
wording.  Per the header's layout comment, the root node always has an
empty prefix, every other node carries a non-empty prefix whose first
byte is the edge byte stored in its parent, and edges are scanned
linearly in order (the first edge whose first byte matches is taken).
-/

/-- Bytes of a key.  The algorithms only compare bytes for equality, so we
model `unsigned char` as `ℕ`. -/
abbrev Byte := Nat

/-- A radix-tree node: reference count of the key terminating here, the
node's prefix bytes, and the ordered list of children.  A child's first
prefix byte plays the role of the edge's "first byte" in the packed
layout of `radix_tree.hpp` (the header stores "the first byte of the
prefix of each of this node's children"). -/
inductive RNode : Type where
  | mk : Nat → List Byte → List RNode → RNode

/-- Reference count of the key held by the node. -/
def RNode.rc : RNode → Nat
  | .mk r _ _ => r

/-- The node's prefix. -/
def RNode.pre : RNode → List Byte
  | .mk _ p _ => p

/-- The node's children. -/
def RNode.children : RNode → List RNode
  | .mk _ _ cs => cs

@[simp] theorem RNode.rc_mk (r : Nat) (p : List Byte) (cs : List RNode) :
    (RNode.mk r p cs).rc = r := rfl

@[simp] theorem RNode.pre_mk (r : Nat) (p : List Byte) (cs : List RNode) :
    (RNode.mk r p cs).pre = p := rfl

@[simp] theorem RNode.children_mk (r : Nat) (p : List Byte) (cs : List RNode) :
    (RNode.mk r p cs).children = cs := rfl

/-- Length of the longest common prefix of two byte strings (step 1 of the
match engine, spec 4.1). -/
def lcp : List Byte → List Byte → Nat
  | a :: as, b :: bs => if a = b then lcp as bs + 1 else 0
  | _, _ => 0

mutual
/-- Modelled from the spec: the match engine (spec 4.1) run on the
subtree `n` with the unconsumed key suffix `key`, returning the
reference count of the node at which the key terminates exactly, and `0`
when the traversal diverges (no exact-match node).  `check` (spec 4.4)
is `0 < rcNode`, and this is also the refcount abstraction used
throughout. -/
def rcNode : RNode → List Byte → Nat
  | .mk r p cs, key =>
    if lcp p key = p.length then
      match key.drop (lcp p key) with
      | [] => r
      | b :: bs => rcChildren cs (b :: bs)
    else 0
/-- Linear scan of the children for one whose first prefix byte matches
the next key byte (step 4 of spec 4.1); the first match is taken. -/
def rcChildren : List RNode → List Byte → Nat
  | [], _ => 0
  | ch :: cs, key =>
    if ch.pre.head? = key.head? then rcNode ch key else rcChildren cs key
end

mutual
/-- Modelled from the spec: insertion (spec 4.2) into the subtree `n`
with unconsumed key suffix `key`.  Returns the "new key?" flag and the
rewritten subtree.  Cases: exact match (bump refcount), divergence
inside the prefix (split, with a single child when the key ends at the
divergence point), descent into the matching child, or appending a fresh
leaf edge. -/
def addNode : RNode → List Byte → Bool × RNode
  | .mk r p cs, key =>
    if lcp p key = p.length then
      match key.drop (lcp p key) with
      | [] => (decide (r = 0), .mk (r + 1) p cs)
      | b :: bs =>
        match addChildren cs (b :: bs) with
        | some res => (res.1, .mk r p res.2)
        | none => (true, .mk r p (cs ++ [.mk 1 (b :: bs) []]))
    else
      match key.drop (lcp p key) with
      | [] => (true, .mk 1 (p.take (lcp p key)) [.mk r (p.drop (lcp p key)) cs])
      | b :: bs =>
        (true, .mk 0 (p.take (lcp p key))
          [.mk r (p.drop (lcp p key)) cs, .mk 1 (b :: bs) []])
/-- Insertion: scan for the child owning the next key byte; `none` when
no child's first byte matches (a fresh edge must be appended). -/
def addChildren : List RNode → List Byte → Option (Bool × List RNode)
  | [], _ => none
  | ch :: cs, key =>
    if ch.pre.head? = key.head? then
      some ((addNode ch key).1, (addNode ch key).2 :: cs)
    else
      match addChildren cs key with
      | some res => some (res.1, ch :: res.2)
      | none => none
end

/-- Result of a removal on a subtree: the "operation applied" flag
(refcount was decremented), the "presence ended" flag (refcount reached
0, so the distinct-key count drops), and the rewritten subtree (`none`
when the node became a dead leaf and must be unlinked by its parent). -/
structure RmRes where
  removed : Bool
  ended : Bool
  result : Option RNode

/-- Result of a removal that descended into a child list: the two flags,
whether the child was unlinked, and the rewritten child list. -/
structure RmCRes where
  removed : Bool
  ended : Bool
  unlinked : Bool
  children : List RNode

/-- Path-compression merge (spec 4.3, glossary): a refcount-0 node with
prefix `p` and a single child is collapsed into that child, whose prefix
is prepended with `p`. -/
def mergeNode (p : List Byte) (ch : RNode) : RNode :=
  .mk ch.rc (p ++ ch.pre) ch.children

/-- After a removal below a node, merge the node with its single
remaining child when a child was just unlinked, the node holds no key,
and it is not the root (spec 4.3 step 4). -/
def fixupNode (isRoot : Bool) (r : Nat) (p : List Byte) (unlinked : Bool)
    (cs : List RNode) : RNode :=
  match cs with
  | [ch] => if isRoot = false ∧ unlinked = true ∧ r = 0 then mergeNode p ch else .mk r p cs
  | _ => .mk r p cs

/-- The fate of a node whose refcount just dropped to 0 (spec 4.3 step
4): the root is always retained; otherwise a leaf is deleted (`none`,
the parent unlinks it), a single-child node is merged with that child,
and a multi-edge node is kept as a structural junction. -/
def deleteOrMerge (isRoot : Bool) (p : List Byte) (cs : List RNode) : RmRes :=
  if isRoot then ⟨true, true, some (.mk 0 p cs)⟩
  else
    match cs with
    | [] => ⟨true, true, none⟩
    | [ch] => ⟨true, true, some (mergeNode p ch)⟩
    | _ => ⟨true, true, some (.mk 0 p cs)⟩

mutual
/-- Modelled from the spec: removal (spec 4.3) from the subtree `n` with
unconsumed key suffix `key`; `isRoot` marks the tree's root, which is
never pruned or merged away.  On an exact match with positive refcount
the count is decremented; if it reaches 0 the node is deleted when it
is a leaf, merged with its single child, or kept as a junction.  After
unlinking a dead leaf, the parent is merged with its single remaining
child when it holds no key (and is not the root). -/
def rmNode : Bool → RNode → List Byte → RmRes
  | isRoot, .mk r p cs, key =>
    if lcp p key = p.length then
      match key.drop (lcp p key) with
      | [] =>
        if r = 0 then ⟨false, false, some (.mk r p cs)⟩
        else if r = 1 then deleteOrMerge isRoot p cs
        else ⟨true, false, some (.mk (r - 1) p cs)⟩
      | b :: bs =>
        match rmChildren cs (b :: bs) with
        | none => ⟨false, false, some (.mk r p cs)⟩
        | some res =>
          ⟨res.removed, res.ended, some (fixupNode isRoot r p res.unlinked res.children)⟩
    else ⟨false, false, some (.mk r p cs)⟩
/-- Removal: scan for the child owning the next key byte; `none` when no
child's first byte matches (the key is absent). -/
def rmChildren : List RNode → List Byte → Option RmCRes
  | [], _ => none
  | ch :: cs, key =>
    if ch.pre.head? = key.head? then
      match rmNode false ch key with
      | ⟨rem, en, some ch'⟩ => some ⟨rem, en, false, ch' :: cs⟩
      | ⟨rem, en, none⟩ => some ⟨rem, en, true, cs⟩
    else
      match rmChildren cs key with
      | some res => some ⟨res.removed, res.ended, res.unlinked, ch :: res.children⟩
      | none => none
end

mutual
/-- Modelled from the spec: enumeration (spec 4.5).  Depth-first
traversal accumulating the path buffer `buf`; a node with positive
refcount contributes one callback invocation carrying the accumulated
key.  The returned list is the sequence of keys passed to the callback. -/
def applyNode : List Byte → RNode → List (List Byte)
  | buf, .mk r p cs =>
    (if 0 < r then [buf ++ p] else []) ++ applyChildren (buf ++ p) cs
/-- Enumeration of a child list, left to right. -/
def applyChildren : List Byte → List RNode → List (List Byte)
  | _, [] => []
  | buf, ch :: cs => applyNode buf ch ++ applyChildren buf cs
end

/-- The tree object of `radix_tree.hpp`: the root node and the
live-distinct-key counter maintained by `add`/`rm` (spec 3: "`size` is
the count of distinct keys with `refcount > 0`"). -/
structure RTree where
  root : RNode
  size : Nat

/-- A fresh tree: a root with empty prefix, no key, no edges. -/
def RTree.empty : RTree := ⟨.mk 0 [] [], 0⟩

/-- `zmq::radix_tree::add`: insert a key, reporting whether it is new;
the counter grows on a new key (spec 4.2 step 6). -/
def RTree.add (t : RTree) (key : List Byte) : Bool × RTree :=
  ((addNode t.root key).1,
    ⟨(addNode t.root key).2, t.size + if (addNode t.root key).1 then 1 else 0⟩)

/-- `zmq::radix_tree::rm`: remove one reference to a key; the counter
shrinks only when the key's presence ends (spec 4.3). -/
def RTree.rm (t : RTree) (key : List Byte) : Bool × RTree :=
  ((rmNode true t.root key).removed,
    ⟨((rmNode true t.root key).result).getD t.root,
      t.size - if (rmNode true t.root key).ended then 1 else 0⟩)

/-- `zmq::radix_tree::check`: membership (spec 4.4) — the match engine
in read-only mode; true iff the key terminates at a node with positive
refcount.  The query performs no structural edit, so the tree is not
threaded through. -/
def RTree.check (t : RTree) (key : List Byte) : Bool :=
  decide (0 < rcNode t.root key)

/-- `zmq::radix_tree::apply`: the sequence of keys handed to the
callback. -/
def RTree.applyList (t : RTree) : List (List Byte) :=
  applyNode [] t.root

/-- The refcount the tree associates to a key (0 when absent). -/
def RTree.refcount (t : RTree) (key : List Byte) : Nat :=
  rcNode t.root key

/-- Modelled from the spec: `check` as a state transformer.  The match
engine runs in read-only mode (spec 4.1 step 5) and performs no
structural edit, so the state after the call is the state before. -/
def RTree.checkOp (t : RTree) (key : List Byte) : Bool × RTree :=
  (t.check key, t)

/-- Iterated removal of the same key. -/
def rmIter (t : RTree) (k : List Byte) : Nat → RTree
  | 0 => t
  | i + 1 => ((rmIter t k i).rm k).2

mutual
/-- Well-formedness of a subtree, as guaranteed by the packed layout and
spec 3: every child has a non-empty prefix (its first byte being the
edge byte) and no two children share a first byte. -/
def wfNode : RNode → Prop
  | .mk _ _ cs => wfChildren cs ∧ (cs.map fun ch => ch.pre.head?).Nodup
/-- Well-formedness of a child list. -/
def wfChildren : List RNode → Prop
  | [] => True
  | ch :: cs => ch.pre ≠ [] ∧ wfNode ch ∧ wfChildren cs
end

mutual
/-- The path-compression invariant for a non-root node (spec 3 and 8):
a node holding no key has at least two outgoing edges. -/
def compressed : RNode → Prop
  | .mk r _ cs => (r = 0 → 2 ≤ cs.length) ∧ compressedChildren cs
/-- Path-compression invariant for a child list. -/
def compressedChildren : List RNode → Prop
  | [] => True
  | ch :: cs => compressed ch ∧ compressedChildren cs
end

/-- The structural invariant of the whole tree: every node below the
root is compressed (the root itself is exempt, spec 4.3 step 4). -/
def rootCompressed : RNode → Prop
  | .mk _ _ cs => compressedChildren cs

/-- The state invariant of a tree reachable from `empty`: the root has
an empty prefix, the tree is well-formed and path-compressed below the
root, and the maintained counter equals the number of enumerated keys. -/
def TreeInv (t : RTree) : Prop :=
  t.root.pre = [] ∧ wfNode t.root ∧ rootCompressed t.root ∧
    t.size = (applyNode [] t.root).length

/-- One operation of a workload: add or remove a key. -/
inductive Op : Type where
  | add : List Byte → Op
  | del : List Byte → Op

/-- Run one operation against the tree, keeping the resulting state. -/
def stepT (t : RTree) : Op → RTree
  | .add k => (t.add k).2
  | .del k => (t.rm k).2

/-- Run a workload against the tree, starting empty. -/
def runTree (ops : List Op) : RTree :=
  ops.foldl stepT RTree.empty

/-- Run one operation against the reference bag (multiset) of keys:
`add` inserts one occurrence, `del` erases one occurrence. -/
def stepB (b : Multiset (List Byte)) : Op → Multiset (List Byte)
  | .add k => k ::ₘ b
  | .del k => b.erase k

/-- Run a workload against the reference bag, starting empty. -/
def runBag (ops : List Op) : Multiset (List Byte) :=
  ops.foldl stepB 0

/-! ## Longest-common-prefix lemmas -/

@[simp] theorem lcp_nil_left (k : List Byte) : lcp [] k = 0 := by
  cases k <;> rfl

@[simp] theorem lcp_nil_right (p : List Byte) : lcp p [] = 0 := by
  cases p <;> rfl

@[simp] theorem lcp_cons (a b : Byte) (as bs : List Byte) :
    lcp (a :: as) (b :: bs) = if a = b then lcp as bs + 1 else 0 := rfl

theorem lcp_le_left (p k : List Byte) : lcp p k ≤ p.length := by
  induction p generalizing k with
  | nil => simp
  | cons a as ih =>
    cases k with
    | nil => simp
    | cons b bs =>
      simp only [lcp_cons, List.length_cons]
      split
      · exact Nat.succ_le_succ (ih bs)
      · exact Nat.zero_le _

theorem lcp_le_right (p k : List Byte) : lcp p k ≤ k.length := by
  induction p generalizing k with
  | nil => simp
  | cons a as ih =>
    cases k with
    | nil => simp
    | cons b bs =>
      simp only [lcp_cons, List.length_cons]
      split
      · exact Nat.succ_le_succ (ih bs)
      · exact Nat.zero_le _

@[simp] theorem lcp_self (p : List Byte) : lcp p p = p.length := by
  induction p with
  | nil => simp
  | cons a as ih => simp [ih]

theorem lcp_eq_left_iff (p k : List Byte) : lcp p k = p.length ↔ p <+: k := by
  induction p generalizing k with
  | nil => simp
  | cons a as ih =>
    cases k with
    | nil => simp
    | cons b bs =>
      have hcons : ((a :: as : List Byte) <+: b :: bs) ↔ (a = b ∧ as <+: bs) := by
        constructor
        · rintro ⟨t, ht⟩
          injection ht with h1 h2
          exact ⟨h1, t, h2⟩
        · rintro ⟨h1, t, h2⟩
          exact ⟨t, by rw [List.cons_append, h1, h2]⟩
      simp only [lcp_cons, hcons, List.length_cons]
      by_cases hab : a = b
      · simp [hab, Nat.succ_inj, ih bs]
      · simp only [hab, if_false, false_and, iff_false]
        have := lcp_le_left as bs
        omega

theorem lcp_eq_of_pref (p k : List Byte) (h : p <+: k) : lcp p k = p.length :=
  (lcp_eq_left_iff p k).2 h

@[simp] theorem lcp_append_self (p t : List Byte) : lcp p (p ++ t) = p.length :=
  lcp_eq_of_pref _ _ ⟨t, rfl⟩

theorem take_lcp (p k : List Byte) : p.take (lcp p k) = k.take (lcp p k) := by
  induction p generalizing k with
  | nil => simp
  | cons a as ih =>
    cases k with
    | nil => simp
    | cons b bs =>
      simp only [lcp_cons]
      split
      · simp_all
      · simp

theorem lcp_append_left (p q k : List Byte) :
    lcp (p ++ q) k =
      if lcp p k = p.length then p.length + lcp q (k.drop p.length) else lcp p k := by
  induction p generalizing k with
  | nil => simp
  | cons a as ih =>
    cases k with
    | nil => simp
    | cons b bs =>
      simp only [List.cons_append, lcp_cons, List.length_cons, List.drop_succ_cons]
      by_cases hab : a = b
      · simp only [hab, if_true, ih bs]
        by_cases h : lcp as bs = as.length
        · simp only [h, if_true, if_pos (by omega : lcp as bs + 1 = as.length + 1)]
          omega
        · rw [if_neg h, if_neg (by omega : ¬lcp as bs + 1 = as.length + 1)]
      · simp only [hab, if_false]
        rw [if_neg (by omega : ¬(0 : Nat) = as.length + 1)]

theorem head_drop_lcp_ne (p k : List Byte) (h1 : lcp p k < p.length)
    (h2 : lcp p k < k.length) :
    (p.drop (lcp p k)).head? ≠ (k.drop (lcp p k)).head? := by
  induction p generalizing k with
  | nil => simp at h1
  | cons a as ih =>
    cases k with
    | nil => simp at h2
    | cons b bs =>
      simp only [lcp_cons, List.length_cons] at *
      by_cases hab : a = b
      · simp only [hab, if_true] at *
        simpa using ih bs (by omega) (by omega)
      · simp [hab]

theorem eq_append_drop_of_lcp (p k : List Byte) (h : lcp p k = p.length) :
    k = p ++ k.drop p.length := by
  have hp : p <+: k := (lcp_eq_left_iff p k).1 h
  obtain ⟨t, rfl⟩ := hp
  simp

/-! ## Refcount-lookup lemmas -/

@[simp] theorem RNode.eta (n : RNode) : RNode.mk n.rc n.pre n.children = n := by
  cases n
  rfl

theorem rcNode_mk (r : Nat) (p : List Byte) (cs : List RNode) (key : List Byte) :
    rcNode (.mk r p cs) key =
      if lcp p key = p.length then
        match key.drop (lcp p key) with
        | [] => r
        | b :: bs => rcChildren cs (b :: bs)
      else 0 := by
  rw [rcNode]

theorem rcNode_outside (r : Nat) (p : List Byte) (cs : List RNode)
    (key : List Byte) (h : lcp p key ≠ p.length) : rcNode (.mk r p cs) key = 0 := by
  rw [rcNode_mk, if_neg h]

@[simp] theorem rcNode_self (r : Nat) (p : List Byte) (cs : List RNode) :
    rcNode (.mk r p cs) p = r := by
  rw [rcNode_mk, if_pos (lcp_self p)]
  simp

@[simp] theorem rcNode_descend (r : Nat) (p : List Byte) (cs : List RNode)
    (rest : List Byte) (hr : rest ≠ []) :
    rcNode (.mk r p cs) (p ++ rest) = rcChildren cs rest := by
  rw [rcNode_mk, if_pos (lcp_append_self p rest)]
  cases rest with
  | nil => exact absurd rfl hr
  | cons b bs => simp

@[simp] theorem rcChildren_nil (key : List Byte) : rcChildren [] key = 0 := by
  rw [rcChildren]

theorem rcChildren_cons (ch : RNode) (cs : List RNode) (key : List Byte) :
    rcChildren (ch :: cs) key =
      if ch.pre.head? = key.head? then rcNode ch key else rcChildren cs key := by
  rw [rcChildren]

theorem rcChildren_zero_of_no_match (cs : List RNode) (key : List Byte)
    (h : ∀ ch ∈ cs, ch.pre.head? ≠ key.head?) : rcChildren cs key = 0 := by
  induction cs with
  | nil => simp
  | cons ch cs ih =>
    rw [rcChildren_cons, if_neg (h ch (by simp))]
    exact ih fun c hc => h c (by simp [hc])

theorem rcChildren_append_no_match (cs ds : List RNode) (key : List Byte)
    (h : ∀ ch ∈ cs, ch.pre.head? ≠ key.head?) :
    rcChildren (cs ++ ds) key = rcChildren ds key := by
  induction cs with
  | nil => simp
  | cons ch cs ih =>
    rw [List.cons_append, rcChildren_cons, if_neg (h ch (by simp))]
    exact ih fun c hc => h c (by simp [hc])

theorem rcNode_eq_zero_of_head_ne (ch : RNode) (key : List Byte)
    (hne : ch.pre ≠ []) (h : ch.pre.head? ≠ key.head?) : rcNode ch key = 0 := by
  obtain ⟨r, p, cs⟩ := ch
  cases p with
  | nil => exact absurd rfl hne
  | cons a as =>
    cases key with
    | nil => exact rcNode_outside _ _ _ _ (by simp)
    | cons b bs =>
      simp only [RNode.pre_mk, List.head?_cons, ne_eq, Option.some.injEq] at h
      exact rcNode_outside _ _ _ _ (by simp [lcp_cons, h])

theorem rc_pre_append (r : Nat) (x y : List Byte) (cs : List RNode) (key : List Byte) :
    rcNode (.mk r (x ++ y) cs) key =
      if lcp x key = x.length then rcNode (.mk r y cs) (key.drop x.length) else 0 := by
  by_cases hx : lcp x key = x.length
  · rw [if_pos hx, rcNode_mk, rcNode_mk, lcp_append_left, if_pos hx]
    have hle : lcp y (key.drop x.length) ≤ y.length := lcp_le_left _ _
    by_cases hy : lcp y (key.drop x.length) = y.length
    · rw [if_pos (by simp [hy]), if_pos hy, List.drop_drop, Nat.add_comm]
    · rw [if_neg (by simp; omega), if_neg hy]
  · rw [if_neg hx, rcNode_mk, lcp_append_left, if_neg hx]
    have h1 : lcp x key ≤ x.length := lcp_le_left _ _
    rw [if_neg (by simp; omega)]

theorem rc_merge (p : List Byte) (ch : RNode) (key : List Byte) (h : ch.pre ≠ []) :
    rcNode (mergeNode p ch) key = rcNode (.mk 0 p [ch]) key := by
  rw [mergeNode, rc_pre_append ch.rc p ch.pre ch.children key, RNode.eta,
    rcNode_mk 0 p [ch] key]
  by_cases hp : lcp p key = p.length
  · rw [if_pos hp, if_pos hp, hp]
    cases hk : key.drop p.length with
    | nil =>
      show rcNode ch [] = 0
      refine rcNode_eq_zero_of_head_ne ch [] h ?_
      cases hcp : ch.pre with
      | nil => exact absurd hcp h
      | cons a as => simp
    | cons b bs =>
      show rcNode ch (b :: bs) = rcChildren [ch] (b :: bs)
      rw [rcChildren_cons, rcChildren_nil]
      split
      · rfl
      · exact rcNode_eq_zero_of_head_ne ch (b :: bs) h (by assumption)
  · rw [if_neg hp, if_neg hp]

theorem rcChildren_append_no_match_right (cs ds : List RNode) (key : List Byte)
    (h : ∀ ch ∈ ds, ch.pre.head? ≠ key.head?) :
    rcChildren (cs ++ ds) key = rcChildren cs key := by
  induction cs with
  | nil => simpa using rcChildren_zero_of_no_match ds key h
  | cons ch cs ih =>
    rw [List.cons_append, rcChildren_cons, rcChildren_cons, ih]

theorem rcNode_leaf (q key : List Byte) :
    rcNode (.mk 1 q []) key = if key = q then 1 else 0 := by
  by_cases hk : key = q
  · simp [hk]
  · rw [if_neg hk, rcNode_mk]
    by_cases hp : lcp q key = q.length
    · rw [if_pos hp]
      cases hd : key.drop (lcp q key) with
      | nil =>
        exfalso
        apply hk
        have := eq_append_drop_of_lcp q key hp
        rw [hp] at hd
        rw [this, hd, List.append_nil]
      | cons b bs => simp
    · rw [if_neg hp]

/-! ## Insertion: branch equations -/

theorem addNode_exact (r : Nat) (p : List Byte) (cs : List RNode) (key : List Byte)
    (h1 : lcp p key = p.length) (h2 : key.drop (lcp p key) = []) :
    addNode (.mk r p cs) key = (decide (r = 0), .mk (r + 1) p cs) := by
  rw [addNode, if_pos h1]
  simp only [h2]

theorem addNode_descend (r : Nat) (p : List Byte) (cs : List RNode) (key : List Byte)
    (b : Byte) (bs : List Byte) (res : Bool × List RNode)
    (h1 : lcp p key = p.length) (h2 : key.drop (lcp p key) = b :: bs)
    (hres : addChildren cs (b :: bs) = some res) :
    addNode (.mk r p cs) key = (res.1, .mk r p res.2) := by
  rw [addNode, if_pos h1]
  simp only [h2, hres]

theorem addNode_append (r : Nat) (p : List Byte) (cs : List RNode) (key : List Byte)
    (b : Byte) (bs : List Byte)
    (h1 : lcp p key = p.length) (h2 : key.drop (lcp p key) = b :: bs)
    (hres : addChildren cs (b :: bs) = none) :
    addNode (.mk r p cs) key = (true, .mk r p (cs ++ [.mk 1 (b :: bs) []])) := by
  rw [addNode, if_pos h1]
  simp only [h2, hres]

theorem addNode_split_end (r : Nat) (p : List Byte) (cs : List RNode) (key : List Byte)
    (h1 : lcp p key ≠ p.length) (h2 : key.drop (lcp p key) = []) :
    addNode (.mk r p cs) key =
      (true, .mk 1 (p.take (lcp p key)) [.mk r (p.drop (lcp p key)) cs]) := by
  rw [addNode, if_neg h1]
  simp only [h2]

theorem addNode_split_mid (r : Nat) (p : List Byte) (cs : List RNode) (key : List Byte)
    (b : Byte) (bs : List Byte)
    (h1 : lcp p key ≠ p.length) (h2 : key.drop (lcp p key) = b :: bs) :
    addNode (.mk r p cs) key =
      (true, .mk 0 (p.take (lcp p key))
        [.mk r (p.drop (lcp p key)) cs, .mk 1 (b :: bs) []]) := by
  rw [addNode, if_neg h1]
  simp only [h2]

@[simp] theorem addChildren_nil (key : List Byte) : addChildren [] key = none := by
  rw [addChildren]

theorem addChildren_cons_match (ch : RNode) (cs : List RNode) (key : List Byte)
    (h : ch.pre.head? = key.head?) :
    addChildren (ch :: cs) key =
      some ((addNode ch key).1, (addNode ch key).2 :: cs) := by
  rw [addChildren, if_pos h]

theorem addChildren_cons_skip_some (ch : RNode) (cs : List RNode) (key : List Byte)
    (res : Bool × List RNode) (h : ¬ch.pre.head? = key.head?)
    (hres : addChildren cs key = some res) :
    addChildren (ch :: cs) key = some (res.1, ch :: res.2) := by
  rw [addChildren, if_neg h]
  simp only [hres]

theorem addChildren_cons_skip_none (ch : RNode) (cs : List RNode) (key : List Byte)
    (h : ¬ch.pre.head? = key.head?) (hres : addChildren cs key = none) :
    addChildren (ch :: cs) key = none := by
  rw [addChildren, if_neg h]
  simp only [hres]

theorem addChildren_none_iff (cs : List RNode) (key : List Byte) :
    addChildren cs key = none ↔ ∀ ch ∈ cs, ch.pre.head? ≠ key.head? := by
  induction cs with
  | nil => simp
  | cons ch cs ih =>
    constructor
    · intro h
      rw [addChildren] at h
      by_cases hch : ch.pre.head? = key.head?
      · rw [if_pos hch] at h
        exact absurd h (by simp)
      · rw [if_neg hch] at h
        intro c hc
        rcases List.mem_cons.1 hc with rfl | hc
        · exact hch
        · rcases hcs : addChildren cs key with _ | res
          · exact (ih.1 hcs) c hc
          · rw [hcs] at h
            exact absurd h (by simp)
    · intro h
      refine addChildren_cons_skip_none ch cs key (h ch (by simp)) ?_
      exact ih.2 fun c hc => h c (by simp [hc])

theorem key_eq_of_drop (p key d : List Byte) (h1 : lcp p key = p.length)
    (h2 : key.drop (lcp p key) = d) : key = p ++ d := by
  have h3 := eq_append_drop_of_lcp p key h1
  rw [h1] at h2
  rw [h2] at h3
  exact h3

theorem head?_take (p : List Byte) (c : Nat) (hc : 0 < c) :
    (p.take c).head? = p.head? := by
  cases p with
  | nil => simp
  | cons a as =>
    cases c with
    | zero => omega
    | succ m => simp

/-- Insertion never changes a node's first prefix byte, provided it is
called the way the traversal calls it (the node's first byte agrees with
the key's). -/
theorem add_head (n : RNode) (key : List Byte) (h : n.pre.head? = key.head?) :
    (addNode n key).2.pre.head? = n.pre.head? := by
  obtain ⟨r, p, cs⟩ := n
  simp only [RNode.pre_mk] at h ⊢
  by_cases h1 : lcp p key = p.length
  · cases hd : key.drop (lcp p key) with
    | nil =>
      rw [addNode_exact r p cs key h1 hd]
      rfl
    | cons b bs =>
      cases hres : addChildren cs (b :: bs) with
      | none =>
        rw [addNode_append r p cs key b bs h1 hd hres]
        rfl
      | some res =>
        rw [addNode_descend r p cs key b bs res h1 hd hres]
        rfl
  · have hc : 0 < lcp p key := by
      cases p with
      | nil => simp at h1
      | cons a as =>
        cases key with
        | nil => simp at h
        | cons b bs =>
          have hab : a = b := by simpa using h
          simp [lcp_cons, hab]
    cases hd : key.drop (lcp p key) with
    | nil =>
      rw [addNode_split_end r p cs key h1 hd]
      simpa using head?_take p _ hc
    | cons b bs =>
      rw [addNode_split_mid r p cs key b bs h1 hd]
      simpa using head?_take p _ hc

/-- Insertion keeps the root's prefix empty. -/
theorem add_pre_nil (n : RNode) (key : List Byte) (h : n.pre = []) :
    (addNode n key).2.pre = [] := by
  obtain ⟨r, p, cs⟩ := n
  simp only [RNode.pre_mk] at h
  subst h
  have h1 : lcp [] key = List.length ([] : List Byte) := by simp
  cases hd : key.drop (lcp [] key) with
  | nil =>
    rw [addNode_exact r [] cs key h1 hd]
    rfl
  | cons b bs =>
    cases hres : addChildren cs (b :: bs) with
    | none =>
      rw [addNode_append r [] cs key b bs h1 hd hres]
      rfl
    | some res =>
      rw [addNode_descend r [] cs key b bs res h1 hd hres]
      rfl

/-! ## Insertion: refcount simulation -/

theorem ne_append_cons (p : List Byte) (b : Byte) (bs : List Byte) :
    p ≠ p ++ b :: bs := by
  intro hcon
  have : p.length = p.length + (b :: bs).length := by
    rw [← List.length_append, ← hcon]
  simp at this

theorem append_ne_of_ne (p : List Byte) {x y : List Byte} (h : x ≠ y) :
    p ++ x ≠ p ++ y :=
  fun hcon => h (List.append_cancel_left hcon)

/-- Inserting `key` bumps its refcount by one and leaves every other
key's refcount unchanged. -/
theorem add_rc (n : RNode) (key : List Byte) : ∀ key',
    rcNode (addNode n key).2 key' =
      if key' = key then rcNode n key + 1 else rcNode n key' := by
  refine addNode.induct
      (fun n key => ∀ key', rcNode (addNode n key).2 key' =
        if key' = key then rcNode n key + 1 else rcNode n key')
      (fun cs key => ∀ res, addChildren cs key = some res → ∀ key',
        rcChildren res.2 key' =
          if key' = key then rcChildren cs key + 1 else rcChildren cs key')
      ?_ ?_ ?_ ?_ ?_ ?_ ?_ ?_ ?_ n key
  · -- exact match: the key terminates exactly at this node
    intro r p cs key h1 h2 key'
    have hk : key = p := by simpa using key_eq_of_drop p key [] h1 h2
    rw [addNode_exact r p cs key h1 h2]
    show rcNode (.mk (r + 1) p cs) key' = _
    rw [hk]
    by_cases hk' : key' = p
    · rw [if_pos hk', hk', rcNode_self, rcNode_self]
    · rw [if_neg hk', rcNode_mk (r + 1) p cs key', rcNode_mk r p cs key']
      by_cases hp : lcp p key' = p.length
      · rw [if_pos hp, if_pos hp]
        cases hd : key'.drop (lcp p key') with
        | nil =>
          have : key' = p := by simpa using key_eq_of_drop p key' [] hp hd
          exact absurd this hk'
        | cons b bs => rfl
      · rw [if_neg hp, if_neg hp]
  · -- descend into the child owning the next byte
    intro r p cs key h1 b bs h2 res hres IH key'
    have hkey : key = p ++ b :: bs := key_eq_of_drop p key (b :: bs) h1 h2
    rw [addNode_descend r p cs key b bs res h1 h2 hres]
    show rcNode (.mk r p res.2) key' = _
    rw [hkey]
    have hn : rcNode (.mk r p cs) (p ++ b :: bs) = rcChildren cs (b :: bs) :=
      rcNode_descend r p cs (b :: bs) (by simp)
    by_cases hp : lcp p key' = p.length
    · cases hd : key'.drop (lcp p key') with
      | nil =>
        have hkp : key' = p := by simpa using key_eq_of_drop p key' [] hp hd
        have hne : key' ≠ p ++ b :: bs := by
          rw [hkp]
          exact ne_append_cons p b bs
        rw [if_neg hne, hkp, rcNode_self, rcNode_self]
      | cons b' bs' =>
        have hk'2 : key' = p ++ b' :: bs' := key_eq_of_drop p key' (b' :: bs') hp hd
        rw [hk'2, rcNode_descend r p res.2 (b' :: bs') (by simp),
          rcNode_descend r p cs (b' :: bs') (by simp), hn,
          IH res hres (b' :: bs')]
        by_cases he : (b' : Byte) :: bs' = b :: bs
        · rw [if_pos he, if_pos (by rw [he])]
        · rw [if_neg he, if_neg (append_ne_of_ne p he)]
    · have hne : key' ≠ p ++ b :: bs := by
        intro hcon
        rw [hcon] at hp
        exact hp (lcp_append_self p (b :: bs))
      rw [if_neg hne, rcNode_outside r p res.2 key' hp,
        rcNode_outside r p cs key' hp]
  · -- no child owns the next byte: append a fresh leaf edge
    intro r p cs key h1 b bs h2 hnone IH key'
    have hkey : key = p ++ b :: bs := key_eq_of_drop p key (b :: bs) h1 h2
    have hno : ∀ ch ∈ cs, ch.pre.head? ≠ (b :: bs : List Byte).head? :=
      (addChildren_none_iff cs (b :: bs)).1 hnone
    rw [addNode_append r p cs key b bs h1 h2 hnone]
    show rcNode (.mk r p (cs ++ [.mk 1 (b :: bs) []])) key' = _
    rw [hkey]
    have hn : rcNode (.mk r p cs) (p ++ b :: bs) = 0 := by
      rw [rcNode_descend r p cs (b :: bs) (by simp)]
      exact rcChildren_zero_of_no_match cs (b :: bs) hno
    by_cases hp : lcp p key' = p.length
    · cases hd : key'.drop (lcp p key') with
      | nil =>
        have hkp : key' = p := by simpa using key_eq_of_drop p key' [] hp hd
        have hne : key' ≠ p ++ b :: bs := by
          rw [hkp]
          exact ne_append_cons p b bs
        rw [if_neg hne, hkp, rcNode_self, rcNode_self]
      | cons b' bs' =>
        have hk'2 : key' = p ++ b' :: bs' := key_eq_of_drop p key' (b' :: bs') hp hd
        rw [hk'2, rcNode_descend r p _ (b' :: bs') (by simp),
          rcNode_descend r p cs (b' :: bs') (by simp), hn]
        by_cases hb : b' = b
        · rw [hb]
          rw [rcChildren_append_no_match cs [.mk 1 (b :: bs) []] (b :: bs')
              (fun ch hch => by simpa using hno ch hch)]
          rw [rcChildren_cons, if_pos (by simp), rcNode_leaf (b :: bs) (b :: bs')]
          by_cases he : bs' = bs
          · rw [he]
            simp
          · rw [if_neg (by simp [he]),
              if_neg (append_ne_of_ne p (by simp [he]))]
            exact (rcChildren_zero_of_no_match cs (b :: bs')
              (fun ch hch => by simpa using hno ch hch)).symm
        · rw [rcChildren_append_no_match_right cs [.mk 1 (b :: bs) []] (b' :: bs')
            (by
              intro ch hch
              rw [List.mem_singleton] at hch
              subst hch
              simp only [RNode.pre_mk, List.head?_cons, ne_eq, Option.some.injEq]
              exact fun hcon => hb hcon.symm)]
          rw [if_neg (append_ne_of_ne p (by simp [hb]))]
    · have hne : key' ≠ p ++ b :: bs := by
        intro hcon
        rw [hcon] at hp
        exact hp (lcp_append_self p (b :: bs))
      rw [if_neg hne, rcNode_outside r p _ key' hp,
        rcNode_outside r p cs key' hp]
  · -- split, key ends at the divergence point
    intro r p cs key h1 h2 key'
    have hcl : lcp p key ≤ p.length := lcp_le_left p key
    have hclt : lcp p key < p.length := lt_of_le_of_ne hcl h1
    have hkey : key = p.take (lcp p key) := by
      have h3 := List.take_append_drop (lcp p key) key
      rw [h2, List.append_nil] at h3
      exact h3.symm.trans (take_lcp p key).symm
    have hx : (p.take (lcp p key)).length = lcp p key := by
      rw [List.length_take]
      omega
    rw [addNode_split_end r p cs key h1 h2]
    show rcNode (.mk 1 (p.take (lcp p key)) [.mk r (p.drop (lcp p key)) cs]) key' = _
    have hdropne : p.drop (lcp p key) ≠ [] := by
      intro hcon
      have := List.drop_eq_nil_iff.1 hcon
      omega
    have hsplit : ∀ k', rcNode (.mk r p cs) k' =
        if lcp (p.take (lcp p key)) k' = lcp p key then
          rcNode (.mk r (p.drop (lcp p key)) cs) (k'.drop (lcp p key)) else 0 := by
      intro k'
      conv_lhs => rw [← List.take_append_drop (lcp p key) p]
      rw [rc_pre_append r (p.take (lcp p key)) (p.drop (lcp p key)) cs k', hx]
    have hrck : rcNode (.mk r p cs) key = 0 := rcNode_outside r p cs key h1
    by_cases hpx : lcp (p.take (lcp p key)) key' = lcp p key
    · cases hd : key'.drop (lcp p key) with
      | nil =>
        have hk' : key' = p.take (lcp p key) := by
          have := key_eq_of_drop (p.take (lcp p key)) key' [] (by rw [hx, hpx])
            (by rw [hpx, hd])
          simpa using this
        rw [if_pos (hk'.trans hkey.symm), hrck, hk', rcNode_self]
      | cons b' bs' =>
        have hk'ne : key' ≠ key := by
          rw [hkey]
          intro hcon
          rw [hcon] at hd
          rw [List.drop_eq_nil_iff.2 (le_of_eq hx)] at hd
          simp at hd
        rw [if_neg hk'ne, hsplit key', if_pos hpx, hd]
        rw [rcNode_mk 1 (p.take (lcp p key)) [.mk r (p.drop (lcp p key)) cs] key',
          if_pos (by rw [hx, hpx]), hpx, hd]
        show rcChildren [RNode.mk r (p.drop (lcp p key)) cs] (b' :: bs') = _
        rw [rcChildren_cons, rcChildren_nil]
        by_cases hh : (RNode.mk r (p.drop (lcp p key)) cs).pre.head?
            = (b' :: bs' : List Byte).head?
        · rw [if_pos hh]
        · rw [if_neg hh]
          rw [rcNode_eq_zero_of_head_ne _ _ (by simpa using hdropne) hh]
    · have hfact : lcp (p.take (lcp p key)) key = lcp p key := by
        nth_rewrite 2 [hkey]
        rw [lcp_self, hx]
      have hk'ne : key' ≠ key := by
        intro hcon
        rw [hcon] at hpx
        exact hpx hfact
      rw [if_neg hk'ne, hsplit key', if_neg hpx,
        rcNode_outside 1 (p.take (lcp p key)) _ key' (by rw [hx]; exact hpx)]
  · -- split, key continues past the divergence point
    intro r p cs key h1 b bs h2 key'
    have hcl : lcp p key ≤ p.length := lcp_le_left p key
    have hclt : lcp p key < p.length := lt_of_le_of_ne hcl h1
    have hkl : lcp p key < key.length := by
      by_contra hcon
      rw [List.drop_eq_nil_iff.2 (by omega)] at h2
      simp at h2
    have hkey : key = p.take (lcp p key) ++ b :: bs := by
      have h3 := List.take_append_drop (lcp p key) key
      rw [h2] at h3
      rw [← take_lcp p key] at h3
      exact h3.symm
    have hx : (p.take (lcp p key)).length = lcp p key := by
      rw [List.length_take]
      omega
    have hdropne : p.drop (lcp p key) ≠ [] := by
      intro hcon
      have := List.drop_eq_nil_iff.1 hcon
      omega
    have hdiff : (p.drop (lcp p key)).head? ≠ some b := by
      have := head_drop_lcp_ne p key hclt hkl
      rw [h2] at this
      simpa using this
    rw [addNode_split_mid r p cs key b bs h1 h2]
    show rcNode (.mk 0 (p.take (lcp p key))
      [.mk r (p.drop (lcp p key)) cs, .mk 1 (b :: bs) []]) key' = _
    have hsplit : ∀ k', rcNode (.mk r p cs) k' =
        if lcp (p.take (lcp p key)) k' = lcp p key then
          rcNode (.mk r (p.drop (lcp p key)) cs) (k'.drop (lcp p key)) else 0 := by
      intro k'
      conv_lhs => rw [← List.take_append_drop (lcp p key) p]
      rw [rc_pre_append r (p.take (lcp p key)) (p.drop (lcp p key)) cs k', hx]
    have hrck : rcNode (.mk r p cs) key = 0 := rcNode_outside r p cs key h1
    by_cases hpx : lcp (p.take (lcp p key)) key' = lcp p key
    · cases hd : key'.drop (lcp p key) with
      | nil =>
        have hk' : key' = p.take (lcp p key) := by
          have := key_eq_of_drop (p.take (lcp p key)) key' [] (by rw [hx, hpx])
            (by rw [hpx, hd])
          simpa using this
        have hk'ne : key' ≠ key := by
          rw [hkey, hk']
          exact ne_append_cons _ b bs
        rw [if_neg hk'ne, hk', rcNode_self, hsplit,
          if_pos (by rw [lcp_self, hx]), List.drop_eq_nil_iff.2 (le_of_eq hx)]
        rw [rcNode_outside r (p.drop (lcp p key)) cs [] (by
          cases hq : p.drop (lcp p key) with
          | nil => exact absurd hq hdropne
          | cons q qs => simp)]
      | cons b' bs' =>
        have hk'2 : key' = p.take (lcp p key) ++ b' :: bs' :=
          key_eq_of_drop (p.take (lcp p key)) key' (b' :: bs')
            (by rw [hx, hpx]) (by rw [hpx, hd])
        rw [rcNode_mk 0 (p.take (lcp p key)) _ key', if_pos (by rw [hx, hpx]),
          hpx, hd]
        show rcChildren [RNode.mk r (p.drop (lcp p key)) cs, RNode.mk 1 (b :: bs) []]
          (b' :: bs') = _
        rw [rcChildren_cons]
        by_cases hh : (RNode.mk r (p.drop (lcp p key)) cs).pre.head?
            = (b' :: bs' : List Byte).head?
        · -- the original node owns b'; then b' ≠ b, so key' ≠ key
          rw [if_pos hh]
          have hbne : b' ≠ b := by
            intro hcon
            rw [hcon] at hh
            exact hdiff (by simpa using hh)
          have hk'ne : key' ≠ key := by
            rw [hk'2]
            intro hcon
            have := List.append_cancel_left (hcon.trans hkey)
            simp at this
            exact hbne this.1
          rw [if_neg hk'ne, hsplit key', if_pos hpx, hd]
        · rw [if_neg hh, rcChildren_cons, rcChildren_nil]
          have hrhs : rcNode (.mk r p cs) key' = 0 := by
            rw [hsplit key', if_pos hpx, hd]
            exact rcNode_eq_zero_of_head_ne _ _ (by simpa using hdropne) hh
          by_cases hb2 : (b : Byte) = b'
          · rw [if_pos (by simp [hb2]), rcNode_leaf]
            by_cases he : (b' : Byte) :: bs' = b :: bs
            · rw [if_pos he, if_pos (by rw [hk'2, he]; exact hkey.symm), hrck]
            · rw [if_neg he, if_neg (by
                rw [hk'2]
                intro hcon
                exact he (List.append_cancel_left (hcon.trans hkey))), hrhs]
          · rw [if_neg (fun hcon => hb2 (by simpa using hcon))]
            have hk'ne : key' ≠ key := by
              rw [hk'2]
              intro hcon
              have := List.append_cancel_left (hcon.trans hkey)
              simp at this
              exact hb2 this.1.symm
            rw [if_neg hk'ne, hrhs]
    · have hfact : lcp (p.take (lcp p key)) key = lcp p key := by
        nth_rewrite 2 [hkey]
        rw [lcp_append_self, hx]
      have hk'ne : key' ≠ key := by
        intro hcon
        rw [hcon] at hpx
        exact hpx hfact
      rw [if_neg hk'ne, hsplit key', if_neg hpx,
        rcNode_outside 0 (p.take (lcp p key)) _ key' (by rw [hx]; exact hpx)]
  · -- child list: empty
    intro key res hres key'
    rw [addChildren_nil] at hres
    exact absurd hres (by simp)
  · -- child list: head child owns the byte
    intro ch cs key h IH res hres key'
    rw [addChildren_cons_match ch cs key h] at hres
    have hres' : res = ((addNode ch key).1, (addNode ch key).2 :: cs) := by
      injection hres with h'
      exact h'.symm
    subst hres'
    show rcChildren ((addNode ch key).2 :: cs) key' = _
    have hhead : (addNode ch key).2.pre.head? = ch.pre.head? := add_head ch key h
    rw [rcChildren_cons, hhead]
    by_cases hk' : ch.pre.head? = key'.head?
    · rw [if_pos hk', IH key']
      by_cases he : key' = key
      · rw [if_pos he, if_pos he, rcChildren_cons, if_pos h]
      · rw [if_neg he, if_neg he, rcChildren_cons, if_pos hk']
    · rw [if_neg hk']
      have hne : key' ≠ key := by
        intro hcon
        rw [hcon] at hk'
        exact hk' h
      rw [if_neg hne, rcChildren_cons, if_neg hk']
  · -- child list: skip the head child, a later child owns the byte
    intro ch cs key h res0 hres0 IH res hres key'
    rw [addChildren_cons_skip_some ch cs key res0 h hres0] at hres
    have hres' : res = (res0.1, ch :: res0.2) := by
      injection hres with h'
      exact h'.symm
    subst hres'
    show rcChildren (ch :: res0.2) key' = _
    rw [rcChildren_cons]
    by_cases hk' : ch.pre.head? = key'.head?
    · rw [if_pos hk']
      have hne : key' ≠ key := by
        intro hcon
        rw [hcon] at hk'
        exact h hk'
      rw [if_neg hne, rcChildren_cons, if_pos hk']
    · rw [if_neg hk', IH res0 hres0 key']
      by_cases he : key' = key
      · rw [if_pos he, if_pos he, rcChildren_cons, if_neg h]
      · rw [if_neg he, if_neg he, rcChildren_cons, if_neg hk']
  · -- child list: no child owns the byte
    intro ch cs key h hnone IH res hres key'
    rw [addChildren_cons_skip_none ch cs key h hnone] at hres
    exact absurd hres (by simp)


/-- The flag returned by insertion: true exactly when the key was absent
(refcount 0), i.e. this call began the key's life. -/
theorem add_flag (n : RNode) (key : List Byte) :
    (addNode n key).1 = decide (rcNode n key = 0) := by
  refine addNode.induct
      (fun n key => (addNode n key).1 = decide (rcNode n key = 0))
      (fun cs key => ∀ res, addChildren cs key = some res →
        res.1 = decide (rcChildren cs key = 0))
      ?_ ?_ ?_ ?_ ?_ ?_ ?_ ?_ ?_ n key
  · intro r p cs key h1 h2
    have hk : key = p := by simpa using key_eq_of_drop p key [] h1 h2
    rw [addNode_exact r p cs key h1 h2, hk, rcNode_self]
  · intro r p cs key h1 b bs h2 res hres IH
    have hkey : key = p ++ b :: bs := key_eq_of_drop p key (b :: bs) h1 h2
    rw [addNode_descend r p cs key b bs res h1 h2 hres, hkey,
      rcNode_descend r p cs (b :: bs) (by simp)]
    exact IH res hres
  · intro r p cs key h1 b bs h2 hnone IH
    have hkey : key = p ++ b :: bs := key_eq_of_drop p key (b :: bs) h1 h2
    rw [addNode_append r p cs key b bs h1 h2 hnone, hkey,
      rcNode_descend r p cs (b :: bs) (by simp),
      rcChildren_zero_of_no_match cs (b :: bs)
        ((addChildren_none_iff cs (b :: bs)).1 hnone)]
    rfl
  · intro r p cs key h1 h2
    rw [addNode_split_end r p cs key h1 h2, rcNode_outside r p cs key h1]
    rfl
  · intro r p cs key h1 b bs h2
    rw [addNode_split_mid r p cs key b bs h1 h2, rcNode_outside r p cs key h1]
    rfl
  · intro key res hres
    rw [addChildren_nil] at hres
    exact absurd hres (by simp)
  · intro ch cs key h IH res hres
    rw [addChildren_cons_match ch cs key h] at hres
    have hres' : res = ((addNode ch key).1, (addNode ch key).2 :: cs) := by
      injection hres with h'
      exact h'.symm
    subst hres'
    rw [rcChildren_cons, if_pos h]
    exact IH
  · intro ch cs key h res0 hres0 IH res hres
    rw [addChildren_cons_skip_some ch cs key res0 h hres0] at hres
    have hres' : res = (res0.1, ch :: res0.2) := by
      injection hres with h'
      exact h'.symm
    subst hres'
    rw [rcChildren_cons, if_neg h]
    exact IH res0 hres0
  · intro ch cs key h hnone IH res hres
    rw [addChildren_cons_skip_none ch cs key h hnone] at hres
    exact absurd hres (by simp)

/-! ## Enumeration lemmas -/

theorem applyNode_mk (buf : List Byte) (r : Nat) (p : List Byte) (cs : List RNode) :
    applyNode buf (.mk r p cs) =
      (if 0 < r then [buf ++ p] else []) ++ applyChildren (buf ++ p) cs := by
  rw [applyNode]

@[simp] theorem applyChildren_nil (buf : List Byte) : applyChildren buf [] = [] := by
  rw [applyChildren]

@[simp] theorem applyChildren_cons (buf : List Byte) (ch : RNode) (cs : List RNode) :
    applyChildren buf (ch :: cs) = applyNode buf ch ++ applyChildren buf cs := by
  rw [applyChildren]

theorem applyChildren_append (buf : List Byte) (cs ds : List RNode) :
    applyChildren buf (cs ++ ds) = applyChildren buf cs ++ applyChildren buf ds := by
  induction cs with
  | nil => simp
  | cons ch cs ih => simp [ih]

theorem apply_pre_append (buf : List Byte) (r : Nat) (x y : List Byte) (cs : List RNode) :
    applyNode buf (.mk r (x ++ y) cs) = applyNode (buf ++ x) (.mk r y cs) := by
  rw [applyNode_mk, applyNode_mk, List.append_assoc]

theorem apply_merge (buf p : List Byte) (ch : RNode) :
    applyNode buf (mergeNode p ch) = applyNode buf (.mk 0 p [ch]) := by
  rw [mergeNode, apply_pre_append, RNode.eta, applyNode_mk]
  simp


/-- Inserting an already-present key changes no enumerated key. -/
theorem add_keys_dup (n : RNode) (key : List Byte) : ∀ buf, 0 < rcNode n key →
    applyNode buf (addNode n key).2 = applyNode buf n := by
  refine addNode.induct
      (fun n key => ∀ buf, 0 < rcNode n key →
        applyNode buf (addNode n key).2 = applyNode buf n)
      (fun cs key => ∀ res, addChildren cs key = some res → ∀ buf,
        0 < rcChildren cs key → applyChildren buf res.2 = applyChildren buf cs)
      ?_ ?_ ?_ ?_ ?_ ?_ ?_ ?_ ?_ n key
  · intro r p cs key h1 h2 buf hrc
    have hk : key = p := by simpa using key_eq_of_drop p key [] h1 h2
    rw [hk, rcNode_self] at hrc
    rw [addNode_exact r p cs key h1 h2]
    show applyNode buf (.mk (r + 1) p cs) = _
    rw [applyNode_mk, applyNode_mk, if_pos (by omega), if_pos hrc]
  · intro r p cs key h1 b bs h2 res hres IH buf hrc
    have hkey : key = p ++ b :: bs := key_eq_of_drop p key (b :: bs) h1 h2
    rw [hkey, rcNode_descend r p cs (b :: bs) (by simp)] at hrc
    rw [addNode_descend r p cs key b bs res h1 h2 hres]
    show applyNode buf (.mk r p res.2) = _
    rw [applyNode_mk, applyNode_mk, IH res hres (buf ++ p) hrc]
  · intro r p cs key h1 b bs h2 hnone IH buf hrc
    have hkey : key = p ++ b :: bs := key_eq_of_drop p key (b :: bs) h1 h2
    rw [hkey, rcNode_descend r p cs (b :: bs) (by simp),
      rcChildren_zero_of_no_match cs (b :: bs)
        ((addChildren_none_iff cs (b :: bs)).1 hnone)] at hrc
    omega
  · intro r p cs key h1 h2 buf hrc
    rw [rcNode_outside r p cs key h1] at hrc
    omega
  · intro r p cs key h1 b bs h2 buf hrc
    rw [rcNode_outside r p cs key h1] at hrc
    omega
  · intro key res hres
    rw [addChildren_nil] at hres
    exact absurd hres (by simp)
  · intro ch cs key h IH res hres buf hrc
    rw [addChildren_cons_match ch cs key h] at hres
    have hres' : res = ((addNode ch key).1, (addNode ch key).2 :: cs) := by
      injection hres with h'
      exact h'.symm
    subst hres'
    rw [rcChildren_cons, if_pos h] at hrc
    show applyChildren buf ((addNode ch key).2 :: cs) = _
    rw [applyChildren_cons, applyChildren_cons, IH buf hrc]
  · intro ch cs key h res0 hres0 IH res hres buf hrc
    rw [addChildren_cons_skip_some ch cs key res0 h hres0] at hres
    have hres' : res = (res0.1, ch :: res0.2) := by
      injection hres with h'
      exact h'.symm
    subst hres'
    rw [rcChildren_cons, if_neg h] at hrc
    show applyChildren buf (ch :: res0.2) = _
    rw [applyChildren_cons, applyChildren_cons, IH res0 hres0 buf hrc]
  · intro ch cs key h hnone IH res hres
    rw [addChildren_cons_skip_none ch cs key h hnone] at hres
    exact absurd hres (by simp)

/-- Inserting an absent key adds exactly that key to the enumeration
(up to order). -/
theorem add_keys_new (n : RNode) (key : List Byte) : ∀ buf, rcNode n key = 0 →
    List.Perm (applyNode buf (addNode n key).2) ((buf ++ key) :: applyNode buf n) := by
  refine addNode.induct
      (fun n key => ∀ buf, rcNode n key = 0 →
        List.Perm (applyNode buf (addNode n key).2) ((buf ++ key) :: applyNode buf n))
      (fun cs key => ∀ res, addChildren cs key = some res → ∀ buf,
        rcChildren cs key = 0 →
        List.Perm (applyChildren buf res.2) ((buf ++ key) :: applyChildren buf cs))
      ?_ ?_ ?_ ?_ ?_ ?_ ?_ ?_ ?_ n key
  · -- exact match on a structural (refcount-0) node
    intro r p cs key h1 h2 buf hrc
    have hk : key = p := by simpa using key_eq_of_drop p key [] h1 h2
    rw [hk, rcNode_self] at hrc
    subst hrc
    rw [addNode_exact 0 p cs key h1 h2, hk]
    show List.Perm (applyNode buf (.mk (0 + 1) p cs)) _
    rw [applyNode_mk, applyNode_mk, if_pos (by omega : (0:Nat) < 0 + 1),
      if_neg (by omega : ¬(0:Nat) < 0)]
    exact List.Perm.refl _
  · -- descend
    intro r p cs key h1 b bs h2 res hres IH buf hrc
    have hkey : key = p ++ b :: bs := key_eq_of_drop p key (b :: bs) h1 h2
    rw [hkey, rcNode_descend r p cs (b :: bs) (by simp)] at hrc
    rw [addNode_descend r p cs key b bs res h1 h2 hres, hkey]
    show List.Perm (applyNode buf (.mk r p res.2)) _
    rw [applyNode_mk, applyNode_mk]
    have hperm := IH res hres (buf ++ p) hrc
    refine ((List.Perm.append_left _ hperm).trans List.perm_middle).trans ?_
    rw [List.append_assoc]
  · -- append a fresh leaf edge
    intro r p cs key h1 b bs h2 hnone IH buf hrc
    have hkey : key = p ++ b :: bs := key_eq_of_drop p key (b :: bs) h1 h2
    rw [addNode_append r p cs key b bs h1 h2 hnone, hkey]
    show List.Perm (applyNode buf (.mk r p (cs ++ [.mk 1 (b :: bs) []]))) _
    have hleaf : applyNode (buf ++ p) (.mk 1 (b :: bs) []) =
        [(buf ++ p) ++ (b :: bs)] := by
      rw [applyNode_mk, applyChildren_nil, if_pos Nat.one_pos, List.append_nil]
    rw [applyNode_mk, applyNode_mk, applyChildren_append, applyChildren_cons,
      applyChildren_nil, hleaf, List.append_nil, ← List.append_assoc]
    refine (List.perm_append_singleton _ _).trans ?_
    rw [List.append_assoc]
  · -- split, key ends at the divergence point
    intro r p cs key h1 h2 buf hrc
    have hkey : key = p.take (lcp p key) := by
      have h3 := List.take_append_drop (lcp p key) key
      rw [h2, List.append_nil] at h3
      exact h3.symm.trans (take_lcp p key).symm
    have happ : applyNode (buf ++ p.take (lcp p key))
        (.mk r (p.drop (lcp p key)) cs) = applyNode buf (.mk r p cs) := by
      rw [← apply_pre_append, List.take_append_drop]
    rw [addNode_split_end r p cs key h1 h2]
    show List.Perm
      (applyNode buf (.mk 1 (p.take (lcp p key)) [.mk r (p.drop (lcp p key)) cs])) _
    rw [applyNode_mk, if_pos Nat.one_pos, applyChildren_cons, applyChildren_nil,
      happ, List.append_nil, ← hkey]
    exact List.Perm.refl _
  · -- split, key continues past the divergence point
    intro r p cs key h1 b bs h2 buf hrc
    have hkey : key = p.take (lcp p key) ++ b :: bs := by
      have h3 := List.take_append_drop (lcp p key) key
      rw [h2] at h3
      rw [← take_lcp p key] at h3
      exact h3.symm
    have happ : applyNode (buf ++ p.take (lcp p key))
        (.mk r (p.drop (lcp p key)) cs) = applyNode buf (.mk r p cs) := by
      rw [← apply_pre_append, List.take_append_drop]
    have hleaf : applyNode (buf ++ p.take (lcp p key)) (.mk 1 (b :: bs) []) =
        [(buf ++ p.take (lcp p key)) ++ (b :: bs)] := by
      rw [applyNode_mk, applyChildren_nil, if_pos Nat.one_pos, List.append_nil]
    rw [addNode_split_mid r p cs key b bs h1 h2]
    show List.Perm (applyNode buf (.mk 0 (p.take (lcp p key))
      [.mk r (p.drop (lcp p key)) cs, .mk 1 (b :: bs) []])) _
    rw [applyNode_mk, if_neg (by omega : ¬(0:Nat) < 0), applyChildren_cons,
      applyChildren_cons, applyChildren_nil, happ, hleaf, List.append_nil,
      List.nil_append]
    have hy : (buf ++ p.take (lcp p key)) ++ (b :: bs) = buf ++ key := by
      conv_rhs => rw [hkey]
      rw [← List.append_assoc]
    rw [hy]
    exact List.perm_append_singleton _ _
  · -- child list: empty
    intro key res hres
    rw [addChildren_nil] at hres
    exact absurd hres (by simp)
  · -- child list: head child owns the byte
    intro ch cs key h IH res hres buf hrc
    rw [addChildren_cons_match ch cs key h] at hres
    have hres' : res = ((addNode ch key).1, (addNode ch key).2 :: cs) := by
      injection hres with h'
      exact h'.symm
    subst hres'
    rw [rcChildren_cons, if_pos h] at hrc
    show List.Perm (applyChildren buf ((addNode ch key).2 :: cs)) _
    rw [applyChildren_cons, applyChildren_cons]
    exact List.Perm.append_right _ (IH buf hrc)
  · -- child list: skip the head child
    intro ch cs key h res0 hres0 IH res hres buf hrc
    rw [addChildren_cons_skip_some ch cs key res0 h hres0] at hres
    have hres' : res = (res0.1, ch :: res0.2) := by
      injection hres with h'
      exact h'.symm
    subst hres'
    rw [rcChildren_cons, if_neg h] at hrc
    show List.Perm (applyChildren buf (ch :: res0.2)) _
    rw [applyChildren_cons, applyChildren_cons]
    exact (List.Perm.append_left _ (IH res0 hres0 buf hrc)).trans List.perm_middle
  · -- child list: no child owns the byte
    intro ch cs key h hnone IH res hres
    rw [addChildren_cons_skip_none ch cs key h hnone] at hres
    exact absurd hres (by simp)

/-! ## Well-formedness -/

theorem wfNode_mk (r : Nat) (p : List Byte) (cs : List RNode) :
    wfNode (.mk r p cs) =
      (wfChildren cs ∧ (cs.map fun ch => ch.pre.head?).Nodup) := by
  rw [wfNode]

@[simp] theorem wfChildren_nil : wfChildren [] = True := by
  rw [wfChildren]

theorem wfChildren_cons (ch : RNode) (cs : List RNode) :
    wfChildren (ch :: cs) = (ch.pre ≠ [] ∧ wfNode ch ∧ wfChildren cs) := by
  rw [wfChildren]

theorem wfChildren_append (cs ds : List RNode) :
    wfChildren (cs ++ ds) ↔ wfChildren cs ∧ wfChildren ds := by
  induction cs with
  | nil => simp
  | cons ch cs ih =>
    rw [List.cons_append, wfChildren_cons, wfChildren_cons, ih]
    tauto

theorem wfChildren_forall (cs : List RNode) :
    wfChildren cs ↔ ∀ ch ∈ cs, ch.pre ≠ [] ∧ wfNode ch := by
  induction cs with
  | nil => simp
  | cons ch cs ih =>
    rw [wfChildren_cons, ih]
    constructor
    · rintro ⟨h1, h2, h3⟩ c hc
      rcases List.mem_cons.1 hc with rfl | hc
      · exact ⟨h1, h2⟩
      · exact h3 c hc
    · intro h
      exact ⟨(h ch (by simp)).1, (h ch (by simp)).2,
        fun c hc => h c (by simp [hc])⟩

/-- A well-formed non-empty-prefix node keeps a non-empty prefix across
insertion. -/
theorem add_pre_ne (ch : RNode) (key : List Byte)
    (h : ch.pre.head? = key.head?) (hne : ch.pre ≠ []) :
    (addNode ch key).2.pre ≠ [] := by
  have hh := add_head ch key h
  intro hcon
  rw [hcon] at hh
  cases hcp : ch.pre with
  | nil => exact hne hcp
  | cons a as =>
    rw [hcp] at hh
    simp at hh

/-- Insertion preserves well-formedness. -/
theorem add_wf (n : RNode) (key : List Byte) : wfNode n → wfNode (addNode n key).2 := by
  refine addNode.induct
      (fun n key => wfNode n → wfNode (addNode n key).2)
      (fun cs key => wfChildren cs → ∀ res, addChildren cs key = some res →
        wfChildren res.2 ∧
          (res.2.map fun ch => ch.pre.head?) = (cs.map fun ch => ch.pre.head?))
      ?_ ?_ ?_ ?_ ?_ ?_ ?_ ?_ ?_ n key
  · intro r p cs key h1 h2 hwf
    rw [addNode_exact r p cs key h1 h2]
    show wfNode (.mk (r + 1) p cs)
    rw [wfNode_mk] at hwf ⊢
    exact hwf
  · intro r p cs key h1 b bs h2 res hres IH hwf
    rw [addNode_descend r p cs key b bs res h1 h2 hres]
    show wfNode (.mk r p res.2)
    rw [wfNode_mk] at hwf ⊢
    obtain ⟨hch, hnd⟩ := hwf
    obtain ⟨hch', hmap⟩ := IH hch res hres
    exact ⟨hch', by rw [hmap]; exact hnd⟩
  · intro r p cs key h1 b bs h2 hnone IH hwf
    rw [addNode_append r p cs key b bs h1 h2 hnone]
    show wfNode (.mk r p (cs ++ [.mk 1 (b :: bs) []]))
    rw [wfNode_mk] at hwf ⊢
    obtain ⟨hch, hnd⟩ := hwf
    have hno := (addChildren_none_iff cs (b :: bs)).1 hnone
    constructor
    · rw [wfChildren_append]
      refine ⟨hch, ?_⟩
      rw [wfChildren_cons, wfNode_mk]
      simp
    · rw [List.map_append, List.nodup_append]
      refine ⟨hnd, by simp, ?_⟩
      intro a ha
      simp only [List.map_cons, List.map_nil, List.mem_singleton]
      intro hcon
      rw [List.mem_map] at ha
      obtain ⟨c, hc, hc2⟩ := ha
      subst hcon
      exact hno c hc (by rw [hc2]; simp)
  · intro r p cs key h1 h2 hwf
    have hcl : lcp p key ≤ p.length := lcp_le_left p key
    have hclt : lcp p key < p.length := lt_of_le_of_ne hcl h1
    rw [addNode_split_end r p cs key h1 h2]
    show wfNode (.mk 1 (p.take (lcp p key)) [.mk r (p.drop (lcp p key)) cs])
    rw [wfNode_mk, wfChildren_cons, wfNode_mk]
    rw [wfNode_mk] at hwf
    refine ⟨⟨?_, hwf, trivial⟩, by simp⟩
    simp only [RNode.pre_mk]
    intro hcon
    have := List.drop_eq_nil_iff.1 hcon
    omega
  · intro r p cs key h1 b bs h2 hwf
    have hcl : lcp p key ≤ p.length := lcp_le_left p key
    have hclt : lcp p key < p.length := lt_of_le_of_ne hcl h1
    have hkl : lcp p key < key.length := by
      by_contra hcon
      rw [List.drop_eq_nil_iff.2 (by omega)] at h2
      simp at h2
    have hdiff : (p.drop (lcp p key)).head? ≠ some b := by
      have := head_drop_lcp_ne p key hclt hkl
      rw [h2] at this
      simpa using this
    rw [addNode_split_mid r p cs key b bs h1 h2]
    show wfNode (.mk 0 (p.take (lcp p key))
      [.mk r (p.drop (lcp p key)) cs, .mk 1 (b :: bs) []])
    rw [wfNode_mk, wfChildren_cons, wfChildren_cons, wfNode_mk, wfNode_mk]
    rw [wfNode_mk] at hwf
    refine ⟨⟨?_, hwf, by simp, by simp, trivial⟩, ?_⟩
    · simp only [RNode.pre_mk]
      intro hcon
      have := List.drop_eq_nil_iff.1 hcon
      omega
    · simp only [List.map_cons, List.map_nil, RNode.pre_mk, List.head?_cons]
      exact List.nodup_cons.2 ⟨by simpa using hdiff, by simp⟩
  · intro key hwf res hres
    rw [addChildren_nil] at hres
    exact absurd hres (by simp)
  · intro ch cs key h IH hwf res hres
    rw [addChildren_cons_match ch cs key h] at hres
    have hres' : res = ((addNode ch key).1, (addNode ch key).2 :: cs) := by
      injection hres with h'
      exact h'.symm
    subst hres'
    rw [wfChildren_cons] at hwf
    obtain ⟨hpre, hwfch, hwfcs⟩ := hwf
    constructor
    · rw [wfChildren_cons]
      exact ⟨add_pre_ne ch key h hpre, IH hwfch, hwfcs⟩
    · simp only [List.map_cons]
      rw [add_head ch key h]
  · intro ch cs key h res0 hres0 IH hwf res hres
    rw [addChildren_cons_skip_some ch cs key res0 h hres0] at hres
    have hres' : res = (res0.1, ch :: res0.2) := by
      injection hres with h'
      exact h'.symm
    subst hres'
    rw [wfChildren_cons] at hwf
    obtain ⟨hpre, hwfch, hwfcs⟩ := hwf
    obtain ⟨h1', h2'⟩ := IH hwfcs res0 hres0
    constructor
    · rw [wfChildren_cons]
      exact ⟨hpre, hwfch, h1'⟩
    · simp only [List.map_cons]
      rw [h2']
  · intro ch cs key h hnone IH hwf res hres
    rw [addChildren_cons_skip_none ch cs key h hnone] at hres
    exact absurd hres (by simp)

/-! ## Path compression invariant -/

theorem compressed_mk (r : Nat) (p : List Byte) (cs : List RNode) :
    compressed (.mk r p cs) = ((r = 0 → 2 ≤ cs.length) ∧ compressedChildren cs) := by
  rw [compressed]

@[simp] theorem compressedChildren_nil : compressedChildren [] = True := by
  rw [compressedChildren]

theorem compressedChildren_cons (ch : RNode) (cs : List RNode) :
    compressedChildren (ch :: cs) = (compressed ch ∧ compressedChildren cs) := by
  rw [compressedChildren]

theorem compressedChildren_append (cs ds : List RNode) :
    compressedChildren (cs ++ ds) ↔ compressedChildren cs ∧ compressedChildren ds := by
  induction cs with
  | nil => simp
  | cons ch cs ih =>
    rw [List.cons_append, compressedChildren_cons, compressedChildren_cons, ih]
    tauto

theorem rootCompressed_mk (r : Nat) (p : List Byte) (cs : List RNode) :
    rootCompressed (.mk r p cs) = compressedChildren cs := by
  rw [rootCompressed]

/-- Insertion preserves the path-compression invariant on non-root
subtrees. -/
theorem add_compressed (n : RNode) (key : List Byte) :
    compressed n → compressed (addNode n key).2 := by
  refine addNode.induct
      (fun n key => compressed n → compressed (addNode n key).2)
      (fun cs key => compressedChildren cs → ∀ res, addChildren cs key = some res →
        compressedChildren res.2 ∧ res.2.length = cs.length)
      ?_ ?_ ?_ ?_ ?_ ?_ ?_ ?_ ?_ n key
  · intro r p cs key h1 h2 hc
    rw [addNode_exact r p cs key h1 h2]
    show compressed (.mk (r + 1) p cs)
    rw [compressed_mk] at hc ⊢
    exact ⟨by omega, hc.2⟩
  · intro r p cs key h1 b bs h2 res hres IH hc
    rw [addNode_descend r p cs key b bs res h1 h2 hres]
    show compressed (.mk r p res.2)
    rw [compressed_mk] at hc ⊢
    obtain ⟨h1', h2'⟩ := IH hc.2 res hres
    exact ⟨by rw [h2']; exact hc.1, h1'⟩
  · intro r p cs key h1 b bs h2 hnone IH hc
    rw [addNode_append r p cs key b bs h1 h2 hnone]
    show compressed (.mk r p (cs ++ [.mk 1 (b :: bs) []]))
    rw [compressed_mk] at hc ⊢
    constructor
    · intro hr
      have := hc.1 hr
      rw [List.length_append]
      omega
    · rw [compressedChildren_append, compressedChildren_cons, compressed_mk]
      exact ⟨hc.2, ⟨by simp, trivial⟩, trivial⟩
  · intro r p cs key h1 h2 hc
    rw [addNode_split_end r p cs key h1 h2]
    show compressed (.mk 1 (p.take (lcp p key)) [.mk r (p.drop (lcp p key)) cs])
    rw [compressed_mk, compressedChildren_cons, compressed_mk]
    rw [compressed_mk] at hc
    exact ⟨by omega, ⟨hc.1, hc.2⟩, trivial⟩
  · intro r p cs key h1 b bs h2 hc
    rw [addNode_split_mid r p cs key b bs h1 h2]
    show compressed (.mk 0 (p.take (lcp p key))
      [.mk r (p.drop (lcp p key)) cs, .mk 1 (b :: bs) []])
    rw [compressed_mk, compressedChildren_cons, compressedChildren_cons,
      compressed_mk, compressed_mk]
    rw [compressed_mk] at hc
    exact ⟨by simp, ⟨hc.1, hc.2⟩, ⟨by omega, trivial⟩, trivial⟩
  · intro key hc res hres
    rw [addChildren_nil] at hres
    exact absurd hres (by simp)
  · intro ch cs key h IH hc res hres
    rw [addChildren_cons_match ch cs key h] at hres
    have hres' : res = ((addNode ch key).1, (addNode ch key).2 :: cs) := by
      injection hres with h'
      exact h'.symm
    subst hres'
    rw [compressedChildren_cons] at hc
    exact ⟨by rw [compressedChildren_cons]; exact ⟨IH hc.1, hc.2⟩, by simp⟩
  · intro ch cs key h res0 hres0 IH hc res hres
    rw [addChildren_cons_skip_some ch cs key res0 h hres0] at hres
    have hres' : res = (res0.1, ch :: res0.2) := by
      injection hres with h'
      exact h'.symm
    subst hres'
    rw [compressedChildren_cons] at hc
    obtain ⟨h1', h2'⟩ := IH hc.2 res0 hres0
    exact ⟨by rw [compressedChildren_cons]; exact ⟨hc.1, h1'⟩, by simp [h2']⟩
  · intro ch cs key h hnone IH hc res hres
    rw [addChildren_cons_skip_none ch cs key h hnone] at hres
    exact absurd hres (by simp)

/-- The list-level companion of `add_compressed`. -/
theorem addChildren_compressed (cs : List RNode) (key : List Byte)
    (res : Bool × List RNode) (hc : compressedChildren cs)
    (hres : addChildren cs key = some res) : compressedChildren res.2 := by
  induction cs generalizing res with
  | nil =>
    rw [addChildren_nil] at hres
    exact absurd hres (by simp)
  | cons ch cs ih =>
    rw [compressedChildren_cons] at hc
    by_cases h : ch.pre.head? = key.head?
    · rw [addChildren_cons_match ch cs key h] at hres
      have hres' : res = ((addNode ch key).1, (addNode ch key).2 :: cs) := by
        injection hres with h'
        exact h'.symm
      subst hres'
      rw [compressedChildren_cons]
      exact ⟨add_compressed ch key hc.1, hc.2⟩
    · cases hres0 : addChildren cs key with
      | none =>
        rw [addChildren_cons_skip_none ch cs key h hres0] at hres
        exact absurd hres (by simp)
      | some res0 =>
        rw [addChildren_cons_skip_some ch cs key res0 h hres0] at hres
        have hres' : res = (res0.1, ch :: res0.2) := by
          injection hres with h'
          exact h'.symm
        subst hres'
        rw [compressedChildren_cons]
        exact ⟨hc.1, ih res0 hc.2 hres0⟩

/-- Insertion preserves the structural invariant at the root. -/
theorem add_rootCompressed (n : RNode) (key : List Byte) (hpre : n.pre = [])
    (hc : rootCompressed n) : rootCompressed (addNode n key).2 := by
  obtain ⟨r, p, cs⟩ := n
  simp only [RNode.pre_mk] at hpre
  subst hpre
  rw [rootCompressed_mk] at hc
  have h1 : lcp [] key = List.length ([] : List Byte) := by simp
  cases hd : key.drop (lcp [] key) with
  | nil =>
    rw [addNode_exact r [] cs key h1 hd]
    show rootCompressed (.mk (r + 1) [] cs)
    rw [rootCompressed_mk]
    exact hc
  | cons b bs =>
    cases hres : addChildren cs (b :: bs) with
    | none =>
      rw [addNode_append r [] cs key b bs h1 hd hres]
      show rootCompressed (.mk r [] (cs ++ [.mk 1 (b :: bs) []]))
      rw [rootCompressed_mk, compressedChildren_append, compressedChildren_cons,
        compressed_mk]
      exact ⟨hc, ⟨by simp, trivial⟩, trivial⟩
    | some res =>
      rw [addNode_descend r [] cs key b bs res h1 hd hres]
      show rootCompressed (.mk r [] res.2)
      rw [rootCompressed_mk]
      exact addChildren_compressed cs (b :: bs) res hc hres

/-! ## Removal: branch equations -/

theorem rmNode_outside (isRoot : Bool) (r : Nat) (p : List Byte) (cs : List RNode)
    (key : List Byte) (h1 : lcp p key ≠ p.length) :
    rmNode isRoot (.mk r p cs) key = ⟨false, false, some (.mk r p cs)⟩ := by
  rw [rmNode, if_neg h1]

theorem rmNode_exact_zero (isRoot : Bool) (p : List Byte) (cs : List RNode)
    (key : List Byte) (h1 : lcp p key = p.length) (h2 : key.drop (lcp p key) = []) :
    rmNode isRoot (.mk 0 p cs) key = ⟨false, false, some (.mk 0 p cs)⟩ := by
  rw [rmNode, if_pos h1]
  simp [h2]

theorem rmNode_exact_one (isRoot : Bool) (p : List Byte) (cs : List RNode)
    (key : List Byte) (h1 : lcp p key = p.length) (h2 : key.drop (lcp p key) = []) :
    rmNode isRoot (.mk 1 p cs) key = deleteOrMerge isRoot p cs := by
  rw [rmNode, if_pos h1]
  simp only [h2]
  rfl

@[simp] theorem deleteOrMerge_root (p : List Byte) (cs : List RNode) :
    deleteOrMerge true p cs = ⟨true, true, some (.mk 0 p cs)⟩ := rfl

@[simp] theorem deleteOrMerge_leaf (p : List Byte) :
    deleteOrMerge false p [] = ⟨true, true, none⟩ := rfl

@[simp] theorem deleteOrMerge_single (p : List Byte) (ch : RNode) :
    deleteOrMerge false p [ch] = ⟨true, true, some (mergeNode p ch)⟩ := rfl

@[simp] theorem deleteOrMerge_junction (p : List Byte) (c1 c2 : RNode)
    (rest : List RNode) :
    deleteOrMerge false p (c1 :: c2 :: rest)
      = ⟨true, true, some (.mk 0 p (c1 :: c2 :: rest))⟩ := rfl

theorem rmNode_exact_many (isRoot : Bool) (r : Nat) (p : List Byte) (cs : List RNode)
    (key : List Byte) (h1 : lcp p key = p.length) (h2 : key.drop (lcp p key) = [])
    (hr : 2 ≤ r) :
    rmNode isRoot (.mk r p cs) key = ⟨true, false, some (.mk (r - 1) p cs)⟩ := by
  rw [rmNode, if_pos h1]
  simp only [h2]
  rw [if_neg (by omega : ¬r = 0), if_neg (by omega : ¬r = 1)]

theorem rmNode_descend_none (isRoot : Bool) (r : Nat) (p : List Byte) (cs : List RNode)
    (key : List Byte) (b : Byte) (bs : List Byte)
    (h1 : lcp p key = p.length) (h2 : key.drop (lcp p key) = b :: bs)
    (hnone : rmChildren cs (b :: bs) = none) :
    rmNode isRoot (.mk r p cs) key = ⟨false, false, some (.mk r p cs)⟩ := by
  rw [rmNode, if_pos h1]
  simp only [h2, hnone]

theorem rmNode_descend_some (isRoot : Bool) (r : Nat) (p : List Byte) (cs : List RNode)
    (key : List Byte) (b : Byte) (bs : List Byte) (res : RmCRes)
    (h1 : lcp p key = p.length) (h2 : key.drop (lcp p key) = b :: bs)
    (hres : rmChildren cs (b :: bs) = some res) :
    rmNode isRoot (.mk r p cs) key =
      ⟨res.removed, res.ended, some (fixupNode isRoot r p res.unlinked res.children)⟩ := by
  rw [rmNode, if_pos h1]
  simp only [h2, hres]

@[simp] theorem rmChildren_nil (key : List Byte) : rmChildren [] key = none := by
  rw [rmChildren]

theorem rmChildren_cons_match_some (ch : RNode) (cs : List RNode) (key : List Byte)
    (rem en : Bool) (ch' : RNode) (h : ch.pre.head? = key.head?)
    (hch : rmNode false ch key = ⟨rem, en, some ch'⟩) :
    rmChildren (ch :: cs) key = some ⟨rem, en, false, ch' :: cs⟩ := by
  rw [rmChildren, if_pos h, hch]

theorem rmChildren_cons_match_none (ch : RNode) (cs : List RNode) (key : List Byte)
    (rem en : Bool) (h : ch.pre.head? = key.head?)
    (hch : rmNode false ch key = ⟨rem, en, none⟩) :
    rmChildren (ch :: cs) key = some ⟨rem, en, true, cs⟩ := by
  rw [rmChildren, if_pos h, hch]

theorem rmChildren_cons_skip_some (ch : RNode) (cs : List RNode) (key : List Byte)
    (res : RmCRes) (h : ¬ch.pre.head? = key.head?)
    (hres : rmChildren cs key = some res) :
    rmChildren (ch :: cs) key =
      some ⟨res.removed, res.ended, res.unlinked, ch :: res.children⟩ := by
  rw [rmChildren, if_neg h]
  simp only [hres]

theorem rmChildren_cons_skip_none (ch : RNode) (cs : List RNode) (key : List Byte)
    (h : ¬ch.pre.head? = key.head?) (hres : rmChildren cs key = none) :
    rmChildren (ch :: cs) key = none := by
  rw [rmChildren, if_neg h]
  simp only [hres]

theorem rmChildren_none_iff (cs : List RNode) (key : List Byte) :
    rmChildren cs key = none ↔ ∀ ch ∈ cs, ch.pre.head? ≠ key.head? := by
  induction cs with
  | nil => simp
  | cons ch cs ih =>
    constructor
    · intro h
      by_cases hch : ch.pre.head? = key.head?
      · rcases hres : rmNode false ch key with ⟨rem, en, _ | ch'⟩
        · rw [rmChildren_cons_match_none ch cs key rem en hch hres] at h
          exact absurd h (by simp)
        · rw [rmChildren_cons_match_some ch cs key rem en ch' hch hres] at h
          exact absurd h (by simp)
      · intro c hc
        rcases List.mem_cons.1 hc with rfl | hc
        · exact hch
        · rcases hres : rmChildren cs key with _ | res
          · exact (ih.1 hres) c hc
          · rw [rmChildren_cons_skip_some ch cs key res hch hres] at h
            exact absurd h (by simp)
    · intro h
      refine rmChildren_cons_skip_none ch cs key (h ch (by simp)) ?_
      exact ih.2 fun c hc => h c (by simp [hc])

/-! ## Fixup lemmas -/

@[simp] theorem fixupNode_nil (isRoot : Bool) (r : Nat) (p : List Byte) (u : Bool) :
    fixupNode isRoot r p u [] = .mk r p [] := rfl

@[simp] theorem fixupNode_junction (isRoot : Bool) (r : Nat) (p : List Byte)
    (u : Bool) (c1 c2 : RNode) (rest : List RNode) :
    fixupNode isRoot r p u (c1 :: c2 :: rest) = .mk r p (c1 :: c2 :: rest) := rfl

theorem fixupNode_single (isRoot : Bool) (r : Nat) (p : List Byte) (u : Bool)
    (ch : RNode) :
    fixupNode isRoot r p u [ch] =
      if isRoot = false ∧ u = true ∧ r = 0 then mergeNode p ch else .mk r p [ch] := rfl

theorem fixup_no_unlink (isRoot : Bool) (r : Nat) (p : List Byte) (cs : List RNode) :
    fixupNode isRoot r p false cs = .mk r p cs := by
  match cs with
  | [] => rfl
  | [ch] =>
    rw [fixupNode_single]
    simp
  | c1 :: c2 :: rest => rfl

theorem rc_fixup (isRoot : Bool) (r : Nat) (p : List Byte) (u : Bool)
    (cs : List RNode) (hwf : wfChildren cs) (key' : List Byte) :
    rcNode (fixupNode isRoot r p u cs) key' = rcNode (.mk r p cs) key' := by
  match cs with
  | [] => rfl
  | [ch] =>
    rw [fixupNode_single]
    by_cases hc : isRoot = false ∧ u = true ∧ r = 0
    · rw [if_pos hc]
      rw [wfChildren_cons] at hwf
      rw [rc_merge p ch key' hwf.1, hc.2.2]
    · rw [if_neg hc]
  | c1 :: c2 :: rest => rfl

theorem apply_fixup (isRoot : Bool) (r : Nat) (p : List Byte) (u : Bool)
    (cs : List RNode) (buf : List Byte) :
    applyNode buf (fixupNode isRoot r p u cs) = applyNode buf (.mk r p cs) := by
  match cs with
  | [] => rfl
  | [ch] =>
    rw [fixupNode_single]
    by_cases hc : isRoot = false ∧ u = true ∧ r = 0
    · rw [if_pos hc, apply_merge, hc.2.2]
    · rw [if_neg hc]
  | c1 :: c2 :: rest => rfl

theorem wf_merge (p : List Byte) (ch : RNode) (hwf : wfNode ch) :
    wfNode (mergeNode p ch) := by
  obtain ⟨r, q, cs⟩ := ch
  rw [wfNode_mk] at hwf
  rw [mergeNode]
  rw [wfNode_mk]
  exact hwf

theorem wf_fixup (isRoot : Bool) (r : Nat) (p : List Byte) (u : Bool)
    (cs : List RNode) (hwf : wfChildren cs)
    (hnd : (cs.map fun ch => ch.pre.head?).Nodup) :
    wfNode (fixupNode isRoot r p u cs) := by
  match cs with
  | [] =>
    rw [fixupNode_nil, wfNode_mk]
    simp
  | [ch] =>
    rw [fixupNode_single]
    by_cases hc : isRoot = false ∧ u = true ∧ r = 0
    · rw [if_pos hc]
      rw [wfChildren_cons] at hwf
      exact wf_merge p ch hwf.2.1
    · rw [if_neg hc, wfNode_mk]
      exact ⟨hwf, hnd⟩
  | c1 :: c2 :: rest =>
    rw [fixupNode_junction, wfNode_mk]
    exact ⟨hwf, hnd⟩

theorem pre_fixup_head (isRoot : Bool) (r : Nat) (p : List Byte) (u : Bool)
    (cs : List RNode) (hp : p ≠ []) :
    (fixupNode isRoot r p u cs).pre.head? = p.head? := by
  match cs with
  | [] => rfl
  | [ch] =>
    rw [fixupNode_single]
    by_cases hc : isRoot = false ∧ u = true ∧ r = 0
    · rw [if_pos hc, mergeNode]
      simp only [RNode.pre_mk]
      cases p with
      | nil => exact absurd rfl hp
      | cons a as => simp
    · rw [if_neg hc]
      rfl
  | c1 :: c2 :: rest => rfl

theorem pre_fixup_root (r : Nat) (p : List Byte) (u : Bool) (cs : List RNode) :
    (fixupNode true r p u cs).pre = p := by
  match cs with
  | [] => rfl
  | [ch] =>
    rw [fixupNode_single]
    simp
  | c1 :: c2 :: rest => rfl

/-! ## Removal: main simulation -/

theorem head?_append_left (p q : List Byte) (hp : p ≠ []) :
    (p ++ q).head? = p.head? := by
  cases p with
  | nil => exact absurd rfl hp
  | cons a as => simp

theorem rcNode_change_rc (r r' : Nat) (p : List Byte) (cs : List RNode)
    (key' : List Byte) (h : key' ≠ p) :
    rcNode (.mk r' p cs) key' = rcNode (.mk r p cs) key' := by
  rw [rcNode_mk r' p cs key', rcNode_mk r p cs key']
  by_cases hp : lcp p key' = p.length
  · rw [if_pos hp, if_pos hp]
    cases hd : key'.drop (lcp p key') with
    | nil =>
      have : key' = p := by simpa using key_eq_of_drop p key' [] hp hd
      exact absurd this h
    | cons b bs => rfl
  · rw [if_neg hp, if_neg hp]

/-- The main simulation theorem for removal: the "removed" flag reports
whether the key was present, the "ended" flag whether this was its last
reference; the rewritten subtree decrements exactly this key's refcount,
stays well-formed, and keeps its first byte (the root keeps its whole
prefix).  A deleted subtree was a leaf holding only this key. -/
theorem rm_main (isRoot : Bool) (n : RNode) (key : List Byte) : wfNode n →
    (rmNode isRoot n key).removed = decide (0 < rcNode n key) ∧
    (rmNode isRoot n key).ended = decide (rcNode n key = 1) ∧
    (match (rmNode isRoot n key).result with
     | some n' =>
         (∀ key', rcNode n' key' =
           if key' = key then rcNode n key - 1 else rcNode n key') ∧
         wfNode n' ∧
         (n.pre ≠ [] → n'.pre.head? = n.pre.head?) ∧
         (isRoot = true → n'.pre = n.pre)
     | none => isRoot = false ∧ n = .mk 1 key []) := by
  refine rmNode.induct
      (fun isRoot n key => wfNode n →
        (rmNode isRoot n key).removed = decide (0 < rcNode n key) ∧
        (rmNode isRoot n key).ended = decide (rcNode n key = 1) ∧
        (match (rmNode isRoot n key).result with
         | some n' =>
             (∀ key', rcNode n' key' =
               if key' = key then rcNode n key - 1 else rcNode n key') ∧
             wfNode n' ∧
             (n.pre ≠ [] → n'.pre.head? = n.pre.head?) ∧
             (isRoot = true → n'.pre = n.pre)
         | none => isRoot = false ∧ n = .mk 1 key []))
      (fun cs key => wfChildren cs → (cs.map fun ch => ch.pre.head?).Nodup →
        (match rmChildren cs key with
         | none => ∀ ch ∈ cs, ch.pre.head? ≠ key.head?
         | some res =>
             res.removed = decide (0 < rcChildren cs key) ∧
             res.ended = decide (rcChildren cs key = 1) ∧
             (∀ key', rcChildren res.children key' =
               if key' = key then rcChildren cs key - 1 else rcChildren cs key') ∧
             wfChildren res.children ∧
             List.Sublist (res.children.map fun ch => ch.pre.head?)
               (cs.map fun ch => ch.pre.head?)))
      ?_ ?_ ?_ ?_ ?_ ?_ ?_ ?_ ?_ ?_ ?_ isRoot n key
  · -- exact match, refcount already 0
    intro isRoot p cs key h1 h2 hwf
    have hk : key = p := by simpa using key_eq_of_drop p key [] h1 h2
    rw [rmNode_exact_zero isRoot p cs key h1 h2]
    have hr0 : rcNode (.mk 0 p cs) key = 0 := by
      rw [hk]
      exact rcNode_self 0 p cs
    refine ⟨by rw [hr0]; rfl, by rw [hr0]; rfl, ?_, hwf, fun _ => rfl, fun _ => rfl⟩
    intro key'
    by_cases he : key' = key
    · rw [if_pos he, he, hr0]
    · rw [if_neg he]
  · -- exact match, last reference: the node's fate is decided
    intro isRoot p cs key h1 h2 _ hwf
    have hk : key = p := by simpa using key_eq_of_drop p key [] h1 h2
    rw [rmNode_exact_one isRoot p cs key h1 h2]
    have hr1 : rcNode (.mk 1 p cs) key = 1 := by
      rw [hk]
      exact rcNode_self 1 p cs
    have hrc0 : ∀ key', rcNode (.mk 0 p cs) key' =
        if key' = key then rcNode (.mk 1 p cs) key - 1 else rcNode (.mk 1 p cs) key' := by
      intro key'
      by_cases he : key' = key
      · rw [if_pos he, he, hr1, hk, rcNode_self]
      · rw [if_neg he, rcNode_change_rc 1 0 p cs key' (fun hcon => he (hcon.trans hk.symm))]
    have hwf0 : wfNode (.mk 0 p cs) := by
      rw [wfNode_mk] at hwf ⊢
      exact hwf
    cases isRoot with
    | true =>
      rw [deleteOrMerge_root]
      exact ⟨by rw [hr1]; rfl, by rw [hr1]; rfl, hrc0, hwf0, fun _ => rfl, fun _ => rfl⟩
    | false =>
      match cs with
      | [] =>
        rw [deleteOrMerge_leaf]
        exact ⟨by rw [hr1]; rfl, by rw [hr1]; rfl, rfl, by rw [hk]⟩
      | [ch] =>
        rw [deleteOrMerge_single]
        rw [wfNode_mk, wfChildren_cons] at hwf
        obtain ⟨⟨hpre, hwfch, _⟩, _⟩ := hwf
        refine ⟨by rw [hr1]; rfl, by rw [hr1]; rfl, ?_, wf_merge p ch hwfch, ?_, by simp⟩
        · intro key'
          rw [rc_merge p ch key' hpre]
          exact hrc0 key'
        · intro hp
          rw [mergeNode]
          simp only [RNode.pre_mk]
          exact head?_append_left p ch.pre (by simpa using hp)
      | c1 :: c2 :: rest =>
        rw [deleteOrMerge_junction]
        exact ⟨by rw [hr1]; rfl, by rw [hr1]; rfl, hrc0, hwf0, fun _ => rfl, by simp⟩
  · -- exact match, shared reference survives
    intro isRoot r p cs key h1 h2 hr0 hr1 hwf
    have hk : key = p := by simpa using key_eq_of_drop p key [] h1 h2
    rw [rmNode_exact_many isRoot r p cs key h1 h2 (by omega)]
    have hrr : rcNode (.mk r p cs) key = r := by
      rw [hk]
      exact rcNode_self r p cs
    have hwf' : wfNode (.mk (r - 1) p cs) := by
      rw [wfNode_mk] at hwf ⊢
      exact hwf
    refine ⟨by rw [hrr]; simp; omega, by rw [hrr]; simp; omega, ?_, hwf',
      fun _ => rfl, fun _ => rfl⟩
    intro key'
    by_cases he : key' = key
    · rw [if_pos he, he, hrr, hk, rcNode_self]
    · rw [if_neg he, rcNode_change_rc r (r - 1) p cs key'
        (fun hcon => he (hcon.trans hk.symm))]
  · -- descend: no child owns the next byte, key absent
    intro isRoot r p cs key h1 b bs h2 hnone IH hwf
    have hkey : key = p ++ b :: bs := key_eq_of_drop p key (b :: bs) h1 h2
    rw [rmNode_descend_none isRoot r p cs key b bs h1 h2 hnone]
    have hr0 : rcNode (.mk r p cs) key = 0 := by
      rw [hkey, rcNode_descend r p cs (b :: bs) (by simp)]
      exact rcChildren_zero_of_no_match cs (b :: bs)
        ((rmChildren_none_iff cs (b :: bs)).1 hnone)
    refine ⟨by rw [hr0]; rfl, by rw [hr0]; rfl, ?_, hwf, fun _ => rfl, fun _ => rfl⟩
    intro key'
    by_cases he : key' = key
    · rw [if_pos he, he, hr0]
    · rw [if_neg he]
  · -- descend into the child owning the next byte
    intro isRoot r p cs key h1 b bs h2 res hres IH hwf
    have hkey : key = p ++ b :: bs := key_eq_of_drop p key (b :: bs) h1 h2
    rw [rmNode_descend_some isRoot r p cs key b bs res h1 h2 hres]
    rw [wfNode_mk] at hwf
    obtain ⟨hch, hnd⟩ := hwf
    have HIH := IH hch hnd
    rw [hres] at HIH
    obtain ⟨hrem, hend, hrc, hwfc, hsub⟩ := HIH
    have hn : rcNode (.mk r p cs) key = rcChildren cs (b :: bs) := by
      rw [hkey]
      exact rcNode_descend r p cs (b :: bs) (by simp)
    have hfix : ∀ key', rcNode (fixupNode isRoot r p res.unlinked res.children) key' =
        rcNode (.mk r p res.children) key' :=
      fun key' => rc_fixup isRoot r p res.unlinked res.children hwfc key'
    refine ⟨by rw [hn]; exact hrem, by rw [hn]; exact hend, ?_,
      wf_fixup isRoot r p res.unlinked res.children hwfc (hnd.sublist hsub), ?_, ?_⟩
    · intro key'
      rw [hfix key']
      by_cases hp' : lcp p key' = p.length
      · cases hd : key'.drop (lcp p key') with
        | nil =>
          have hkp : key' = p := by simpa using key_eq_of_drop p key' [] hp' hd
          have hne : key' ≠ key := by
            rw [hkp, hkey]
            exact ne_append_cons p b bs
          rw [if_neg hne, hkp, rcNode_self, rcNode_self]
        | cons b' bs' =>
          have hk'2 : key' = p ++ b' :: bs' := key_eq_of_drop p key' (b' :: bs') hp' hd
          have hn2 : rcNode (.mk r p cs) (p ++ b :: bs) = rcChildren cs (b :: bs) :=
            rcNode_descend r p cs (b :: bs) (by simp)
          rw [hk'2, rcNode_descend r p res.children (b' :: bs') (by simp),
            rcNode_descend r p cs (b' :: bs') (by simp), hrc (b' :: bs'), hkey, hn2]
          by_cases he : (b' : Byte) :: bs' = b :: bs
          · rw [if_pos he, if_pos (by rw [he])]
          · rw [if_neg he, if_neg (append_ne_of_ne p he)]
      · have hne : key' ≠ key := by
          intro hcon
          rw [hcon, hkey] at hp'
          exact hp' (lcp_append_self p (b :: bs))
        rw [if_neg hne, rcNode_outside r p res.children key' hp',
          rcNode_outside r p cs key' hp']
    · intro hp
      simp only [RNode.pre_mk] at hp ⊢
      exact pre_fixup_head isRoot r p res.unlinked res.children hp
    · intro hroot
      rw [hroot]
      simp only [RNode.pre_mk]
      exact pre_fixup_root r p res.unlinked res.children
  · -- the key diverges from this subtree
    intro isRoot r p cs key h1 hwf
    rw [rmNode_outside isRoot r p cs key h1]
    have hr0 : rcNode (.mk r p cs) key = 0 := rcNode_outside r p cs key h1
    refine ⟨by rw [hr0]; rfl, by rw [hr0]; rfl, ?_, hwf, fun _ => rfl, fun _ => rfl⟩
    intro key'
    by_cases he : key' = key
    · rw [if_pos he, he, hr0]
    · rw [if_neg he]
  · -- child list: empty
    intro key hwf hnd
    rw [rmChildren_nil]
    simp
  · -- child list: head child owns the byte, child survives
    intro ch cs key h rem en ch' hch IH hwf hnd
    rw [rmChildren_cons_match_some ch cs key rem en ch' h hch]
    rw [wfChildren_cons] at hwf
    obtain ⟨hpre, hwfch, hwfcs⟩ := hwf
    have HIH := IH hwfch
    rw [hch] at HIH
    obtain ⟨hrem, hend, hrc', hwf', hhead', _⟩ := HIH
    have hheadch : ch'.pre.head? = ch.pre.head? := hhead' hpre
    have hpre' : ch'.pre ≠ [] := by
      intro hcon
      rw [hcon] at hheadch
      cases hcp : ch.pre with
      | nil => exact hpre hcp
      | cons a as =>
        rw [hcp] at hheadch
        simp at hheadch
    have hcc : rcChildren (ch :: cs) key = rcNode ch key := by
      rw [rcChildren_cons, if_pos h]
    refine ⟨by rw [hcc]; exact hrem, by rw [hcc]; exact hend, ?_, ?_, ?_⟩
    · intro key'
      rw [rcChildren_cons, hheadch]
      by_cases hk' : ch.pre.head? = key'.head?
      · rw [if_pos hk', hrc' key']
        by_cases he : key' = key
        · rw [if_pos he, if_pos he, hcc]
        · rw [if_neg he, if_neg he, rcChildren_cons, if_pos hk']
      · rw [if_neg hk']
        have hne : key' ≠ key := by
          intro hcon
          rw [hcon] at hk'
          exact hk' h
        rw [if_neg hne, rcChildren_cons, if_neg hk']
    · rw [wfChildren_cons]
      exact ⟨hpre', hwf', hwfcs⟩
    · simp only [List.map_cons]
      rw [hheadch]
  · -- child list: head child owns the byte and is deleted
    intro ch cs key h rem en hch IH hwf hnd
    rw [rmChildren_cons_match_none ch cs key rem en h hch]
    rw [wfChildren_cons] at hwf
    obtain ⟨hpre, hwfch, hwfcs⟩ := hwf
    have HIH := IH hwfch
    rw [hch] at HIH
    obtain ⟨hrem, hend, _, hcheq⟩ := HIH
    subst hcheq
    have hr1 : rcNode (RNode.mk 1 key []) key = 1 := rcNode_self 1 key []
    have hcc : rcChildren (RNode.mk 1 key [] :: cs) key = 1 := by
      rw [rcChildren_cons, if_pos h, hr1]
    have hnomem : ∀ c ∈ cs, c.pre.head? ≠ key.head? := by
      intro c hc hcon
      rw [List.map_cons, List.nodup_cons] at hnd
      exact hnd.1 (by
        rw [← hcon] at h
        rw [h]
        exact List.mem_map_of_mem _ hc)
    refine ⟨by rw [hcc]; rw [hr1] at hrem; exact hrem,
      by rw [hcc]; rw [hr1] at hend; exact hend, ?_, hwfcs,
      List.sublist_cons_self _ _⟩
    intro key'
    show rcChildren cs key' = _
    by_cases he : key' = key
    · rw [if_pos he, he, hcc]
      exact rcChildren_zero_of_no_match cs key hnomem
    · rw [if_neg he, rcChildren_cons]
      by_cases hk' : (RNode.mk 1 key []).pre.head? = key'.head?
      · rw [if_pos hk', rcNode_leaf key key', if_neg he]
        refine rcChildren_zero_of_no_match cs key' ?_
        intro c hc
        have hkk : (RNode.mk 1 key ([] : List RNode)).pre.head? = key.head? := by simp
        rw [← hk', hkk]
        exact hnomem c hc
      · rw [if_neg hk']
  · -- child list: skip the head child
    intro ch cs key h res0 hres0 IH hwf hnd
    rw [rmChildren_cons_skip_some ch cs key res0 h hres0]
    rw [wfChildren_cons] at hwf
    obtain ⟨hpre, hwfch, hwfcs⟩ := hwf
    rw [List.map_cons, List.nodup_cons] at hnd
    have HIH := IH hwfcs hnd.2
    rw [hres0] at HIH
    obtain ⟨hrem, hend, hrc', hwf', hsub'⟩ := HIH
    have hcc : rcChildren (ch :: cs) key = rcChildren cs key := by
      rw [rcChildren_cons, if_neg h]
    refine ⟨by rw [hcc]; exact hrem, by rw [hcc]; exact hend, ?_, ?_, ?_⟩
    · intro key'
      rw [rcChildren_cons]
      by_cases hk' : ch.pre.head? = key'.head?
      · rw [if_pos hk']
        have hne : key' ≠ key := by
          intro hcon
          rw [hcon] at hk'
          exact h hk'
        rw [if_neg hne, rcChildren_cons, if_pos hk']
      · rw [if_neg hk', hrc' key']
        by_cases he : key' = key
        · rw [if_pos he, if_pos he, hcc]
        · rw [if_neg he, if_neg he, rcChildren_cons, if_neg hk']
    · rw [wfChildren_cons]
      exact ⟨hpre, hwfch, hwf'⟩
    · simp only [List.map_cons]
      exact List.Sublist.cons₂ _ hsub'
  · -- child list: no child owns the byte
    intro ch cs key h hnone IH hwf hnd
    rw [rmChildren_cons_skip_none ch cs key h hnone]
    rw [wfChildren_cons] at hwf
    rw [List.map_cons, List.nodup_cons] at hnd
    have HIH := IH hwf.2.2 hnd.2
    rw [hnone] at HIH
    intro c hc
    rcases List.mem_cons.1 hc with rfl | hc
    · exact h
    · exact HIH c hc

/-- Removing an absent key is a complete no-op: flags are false and the
tree is returned unchanged. -/
theorem rm_noop (isRoot : Bool) (n : RNode) (key : List Byte) :
    rcNode n key = 0 → rmNode isRoot n key = ⟨false, false, some n⟩ := by
  refine rmNode.induct
      (fun isRoot n key => rcNode n key = 0 →
        rmNode isRoot n key = ⟨false, false, some n⟩)
      (fun cs key => rcChildren cs key = 0 →
        rmChildren cs key = none ∨ rmChildren cs key = some ⟨false, false, false, cs⟩)
      ?_ ?_ ?_ ?_ ?_ ?_ ?_ ?_ ?_ ?_ ?_ isRoot n key
  · intro isRoot p cs key h1 h2 hrc
    exact rmNode_exact_zero isRoot p cs key h1 h2
  · intro isRoot p cs key h1 h2 _ hrc
    have hk : key = p := by simpa using key_eq_of_drop p key [] h1 h2
    rw [hk, rcNode_self] at hrc
    simp at hrc
  · intro isRoot r p cs key h1 h2 hr0 _ hrc
    have hk : key = p := by simpa using key_eq_of_drop p key [] h1 h2
    rw [hk, rcNode_self] at hrc
    exact absurd hrc hr0
  · intro isRoot r p cs key h1 b bs h2 hnone IH hrc
    exact rmNode_descend_none isRoot r p cs key b bs h1 h2 hnone
  · intro isRoot r p cs key h1 b bs h2 res hres IH hrc
    have hkey : key = p ++ b :: bs := key_eq_of_drop p key (b :: bs) h1 h2
    rw [hkey, rcNode_descend r p cs (b :: bs) (by simp)] at hrc
    rcases IH hrc with hn | hs
    · rw [hn] at hres
      exact absurd hres (by simp)
    · rw [hs] at hres
      have hres' : res = ⟨false, false, false, cs⟩ := by
        injection hres with h'
        exact h'.symm
      subst hres'
      rw [rmNode_descend_some isRoot r p cs key b bs _ h1 h2 hs]
      show RmRes.mk false false (some (fixupNode isRoot r p false cs)) = _
      rw [fixup_no_unlink]
  · intro isRoot r p cs key h1 hrc
    exact rmNode_outside isRoot r p cs key h1
  · intro key hrc
    left
    exact rmChildren_nil key
  · intro ch cs key h rem en ch' hch IH hrc
    rw [rcChildren_cons, if_pos h] at hrc
    have hthis := IH hrc
    right
    exact rmChildren_cons_match_some ch cs key false false ch h hthis
  · intro ch cs key h rem en hch IH hrc
    rw [rcChildren_cons, if_pos h] at hrc
    have := IH hrc
    rw [this] at hch
    exact absurd hch (by simp)
  · intro ch cs key h res0 hres0 IH hrc
    rw [rcChildren_cons, if_neg h] at hrc
    rcases IH hrc with hn | hs
    · rw [hn] at hres0
      exact absurd hres0 (by simp)
    · rw [hs] at hres0
      have hres' : res0 = ⟨false, false, false, cs⟩ := by
        injection hres0 with h'
        exact h'.symm
      subst hres'
      right
      rw [rmChildren_cons_skip_some ch cs key _ h hs]
  · intro ch cs key h hnone IH hrc
    left
    exact rmChildren_cons_skip_none ch cs key h hnone

/-- Effect of removal on the enumerated keys: ending a key's presence
removes exactly that key from the enumeration (up to order); any other
outcome leaves the enumeration unchanged.  A deleted subtree enumerated
exactly the removed key. -/
theorem rm_keys (isRoot : Bool) (n : RNode) (key : List Byte) : wfNode n → ∀ buf,
    match (rmNode isRoot n key).result with
    | some n' =>
        if rcNode n key = 1 then
          List.Perm (applyNode buf n) ((buf ++ key) :: applyNode buf n')
        else applyNode buf n' = applyNode buf n
    | none => applyNode buf n = [buf ++ key] := by
  refine rmNode.induct
      (fun isRoot n key => wfNode n → ∀ buf,
        match (rmNode isRoot n key).result with
        | some n' =>
            if rcNode n key = 1 then
              List.Perm (applyNode buf n) ((buf ++ key) :: applyNode buf n')
            else applyNode buf n' = applyNode buf n
        | none => applyNode buf n = [buf ++ key])
      (fun cs key => wfChildren cs → ∀ buf,
        match rmChildren cs key with
        | none => True
        | some res =>
            if rcChildren cs key = 1 then
              List.Perm (applyChildren buf cs)
                ((buf ++ key) :: applyChildren buf res.children)
            else applyChildren buf res.children = applyChildren buf cs)
      ?_ ?_ ?_ ?_ ?_ ?_ ?_ ?_ ?_ ?_ ?_ isRoot n key
  · -- exact match, refcount 0
    intro isRoot p cs key h1 h2 hwf buf
    have hk : key = p := by simpa using key_eq_of_drop p key [] h1 h2
    rw [rmNode_exact_zero isRoot p cs key h1 h2]
    have hr0 : rcNode (.mk 0 p cs) key = 0 := by
      rw [hk]
      exact rcNode_self 0 p cs
    show if rcNode (.mk 0 p cs) key = 1 then _ else _
    rw [if_neg (by omega)]
  · -- exact match, last reference
    intro isRoot p cs key h1 h2 _ hwf buf
    have hk : key = p := by simpa using key_eq_of_drop p key [] h1 h2
    rw [rmNode_exact_one isRoot p cs key h1 h2]
    have hr1 : rcNode (.mk 1 p cs) key = 1 := by
      rw [hk]
      exact rcNode_self 1 p cs
    cases isRoot with
    | true =>
      rw [deleteOrMerge_root]
      show if rcNode (.mk 1 p cs) key = 1 then _ else _
      rw [if_pos hr1, hk, applyNode_mk, applyNode_mk,
        if_pos Nat.one_pos, if_neg (by omega : ¬(0:Nat) < 0)]
      exact List.Perm.refl _
    | false =>
      match cs with
      | [] =>
        rw [deleteOrMerge_leaf]
        show applyNode buf (.mk 1 p []) = [buf ++ key]
        rw [applyNode_mk, applyChildren_nil, if_pos Nat.one_pos, hk,
          List.append_nil]
      | [ch] =>
        rw [deleteOrMerge_single]
        show if rcNode (.mk 1 p [ch]) key = 1 then _ else _
        rw [if_pos hr1, apply_merge, hk, applyNode_mk, applyNode_mk,
          if_pos Nat.one_pos, if_neg (by omega : ¬(0:Nat) < 0)]
        exact List.Perm.refl _
      | c1 :: c2 :: rest =>
        rw [deleteOrMerge_junction]
        show if rcNode (.mk 1 p (c1 :: c2 :: rest)) key = 1 then _ else _
        rw [if_pos hr1, hk, applyNode_mk, applyNode_mk,
          if_pos Nat.one_pos, if_neg (by omega : ¬(0:Nat) < 0)]
        exact List.Perm.refl _
  · -- exact match, shared reference survives
    intro isRoot r p cs key h1 h2 hr0 hr1 hwf buf
    have hk : key = p := by simpa using key_eq_of_drop p key [] h1 h2
    rw [rmNode_exact_many isRoot r p cs key h1 h2 (by omega)]
    have hrr : rcNode (.mk r p cs) key = r := by
      rw [hk]
      exact rcNode_self r p cs
    show if rcNode (.mk r p cs) key = 1 then _ else _
    rw [if_neg (by omega), applyNode_mk, applyNode_mk,
      if_pos (by omega : 0 < r - 1), if_pos (by omega : 0 < r)]
  · -- descend: key absent
    intro isRoot r p cs key h1 b bs h2 hnone IH hwf buf
    rw [rmNode_descend_none isRoot r p cs key b bs h1 h2 hnone]
    have hr0 : rcNode (.mk r p cs) key = 0 := by
      rw [key_eq_of_drop p key (b :: bs) h1 h2,
        rcNode_descend r p cs (b :: bs) (by simp)]
      exact rcChildren_zero_of_no_match cs (b :: bs)
        ((rmChildren_none_iff cs (b :: bs)).1 hnone)
    show if rcNode (.mk r p cs) key = 1 then _ else _
    rw [if_neg (by omega)]
  · -- descend into the owning child
    intro isRoot r p cs key h1 b bs h2 res hres IH hwf buf
    have hkey : key = p ++ b :: bs := key_eq_of_drop p key (b :: bs) h1 h2
    rw [rmNode_descend_some isRoot r p cs key b bs res h1 h2 hres]
    rw [wfNode_mk] at hwf
    have HIH := IH hwf.1 (buf ++ p)
    rw [hres] at HIH
    have HIH2 : if rcChildren cs (b :: bs) = 1 then
        List.Perm (applyChildren (buf ++ p) cs)
          (((buf ++ p) ++ (b :: bs)) :: applyChildren (buf ++ p) res.children)
      else applyChildren (buf ++ p) res.children = applyChildren (buf ++ p) cs := HIH
    have hn : rcNode (.mk r p cs) key = rcChildren cs (b :: bs) := by
      rw [hkey]
      exact rcNode_descend r p cs (b :: bs) (by simp)
    show if rcNode (.mk r p cs) key = 1 then _ else _
    by_cases hone : rcChildren cs (b :: bs) = 1
    · rw [if_pos (by rw [hn]; exact hone)]
      rw [if_pos hone] at HIH2
      rw [apply_fixup, applyNode_mk, applyNode_mk]
      refine ((List.Perm.append_left _ HIH2).trans List.perm_middle).trans ?_
      rw [List.append_assoc, ← hkey]
    · rw [if_neg (by rw [hn]; exact hone)]
      rw [if_neg hone] at HIH2
      rw [apply_fixup, applyNode_mk, applyNode_mk, HIH2]
  · -- divergence
    intro isRoot r p cs key h1 hwf buf
    rw [rmNode_outside isRoot r p cs key h1]
    have hr0 : rcNode (.mk r p cs) key = 0 := rcNode_outside r p cs key h1
    show if rcNode (.mk r p cs) key = 1 then _ else _
    rw [if_neg (by omega)]
  · -- child list: empty
    intro key hwf buf
    rw [rmChildren_nil]
    trivial
  · -- child list: head child owns the byte, survives
    intro ch cs key h rem en ch' hch IH hwf buf
    rw [rmChildren_cons_match_some ch cs key rem en ch' h hch]
    rw [wfChildren_cons] at hwf
    have HIH := IH hwf.2.1 buf
    rw [hch] at HIH
    have HIH2 : if rcNode ch key = 1 then
        List.Perm (applyNode buf ch) ((buf ++ key) :: applyNode buf ch')
      else applyNode buf ch' = applyNode buf ch := HIH
    have hcc : rcChildren (ch :: cs) key = rcNode ch key := by
      rw [rcChildren_cons, if_pos h]
    show if rcChildren (ch :: cs) key = 1 then _ else _
    by_cases hone : rcNode ch key = 1
    · rw [if_pos (by rw [hcc]; exact hone)]
      rw [if_pos hone] at HIH2
      rw [applyChildren_cons]
      show List.Perm _ ((buf ++ key) :: applyChildren buf (ch' :: cs))
      rw [applyChildren_cons]
      exact List.Perm.append_right _ HIH2
    · rw [if_neg (by rw [hcc]; exact hone)]
      rw [if_neg hone] at HIH2
      show applyChildren buf (ch' :: cs) = _
      rw [applyChildren_cons, applyChildren_cons, HIH2]
  · -- child list: head child deleted
    intro ch cs key h rem en hch IH hwf buf
    rw [rmChildren_cons_match_none ch cs key rem en h hch]
    rw [wfChildren_cons] at hwf
    have hmain := rm_main false ch key hwf.2.1
    rw [hch] at hmain
    obtain ⟨_, _, _, hcheq⟩ := hmain
    subst hcheq
    have hcc : rcChildren (RNode.mk 1 key [] :: cs) key = 1 := by
      rw [rcChildren_cons, if_pos h]
      exact rcNode_self 1 key []
    show if rcChildren (RNode.mk 1 key [] :: cs) key = 1 then _ else _
    rw [if_pos hcc, applyChildren_cons, applyNode_mk, applyChildren_nil,
      if_pos Nat.one_pos, List.append_nil]
    exact List.Perm.refl _
  · -- child list: skip the head child
    intro ch cs key h res0 hres0 IH hwf buf
    rw [rmChildren_cons_skip_some ch cs key res0 h hres0]
    rw [wfChildren_cons] at hwf
    have HIH := IH hwf.2.2 buf
    rw [hres0] at HIH
    have HIH2 : if rcChildren cs key = 1 then
        List.Perm (applyChildren buf cs)
          ((buf ++ key) :: applyChildren buf res0.children)
      else applyChildren buf res0.children = applyChildren buf cs := HIH
    have hcc : rcChildren (ch :: cs) key = rcChildren cs key := by
      rw [rcChildren_cons, if_neg h]
    show if rcChildren (ch :: cs) key = 1 then _ else _
    by_cases hone : rcChildren cs key = 1
    · rw [if_pos (by rw [hcc]; exact hone)]
      rw [if_pos hone] at HIH2
      rw [applyChildren_cons]
      show List.Perm _ ((buf ++ key) :: applyChildren buf (ch :: res0.children))
      rw [applyChildren_cons]
      exact (List.Perm.append_left _ HIH2).trans List.perm_middle
    · rw [if_neg (by rw [hcc]; exact hone)]
      rw [if_neg hone] at HIH2
      show applyChildren buf (ch :: res0.children) = _
      rw [applyChildren_cons, applyChildren_cons, HIH2]
  · -- child list: no child owns the byte
    intro ch cs key h hnone IH hwf buf
    rw [rmChildren_cons_skip_none ch cs key h hnone]
    trivial

theorem compressed_merge (p : List Byte) (ch : RNode) (hc : compressed ch) :
    compressed (mergeNode p ch) := by
  obtain ⟨r, q, cs⟩ := ch
  rw [compressed_mk] at hc
  rw [mergeNode]
  rw [compressed_mk]
  exact hc

theorem fixup_root (r : Nat) (p : List Byte) (u : Bool) (cs : List RNode) :
    fixupNode true r p u cs = .mk r p cs := by
  match cs with
  | [] => rfl
  | [ch] =>
    rw [fixupNode_single]
    simp
  | c1 :: c2 :: rest => rfl

/-- Removal preserves the path-compression invariant on non-root
subtrees. -/
theorem rm_compressed (isRoot : Bool) (n : RNode) (key : List Byte) :
    compressed n → isRoot = false →
    (match (rmNode isRoot n key).result with
     | some n' => compressed n'
     | none => True) := by
  refine rmNode.induct
      (fun isRoot n key => compressed n → isRoot = false →
        (match (rmNode isRoot n key).result with
         | some n' => compressed n'
         | none => True))
      (fun cs key => compressedChildren cs →
        (match rmChildren cs key with
         | none => True
         | some res => compressedChildren res.children ∧
             (res.unlinked = false → res.children.length = cs.length) ∧
             (res.unlinked = true → res.children.length + 1 = cs.length)))
      ?_ ?_ ?_ ?_ ?_ ?_ ?_ ?_ ?_ ?_ ?_ isRoot n key
  · intro isRoot p cs key h1 h2 hc hr
    rw [rmNode_exact_zero isRoot p cs key h1 h2]
    exact hc
  · intro isRoot p cs key h1 h2 _ hc hr
    subst hr
    rw [rmNode_exact_one false p cs key h1 h2]
    rw [compressed_mk] at hc
    match cs with
    | [] =>
      rw [deleteOrMerge_leaf]
      trivial
    | [ch] =>
      rw [deleteOrMerge_single]
      rw [compressedChildren_cons] at hc
      exact compressed_merge p ch hc.2.1
    | c1 :: c2 :: rest =>
      rw [deleteOrMerge_junction]
      show compressed (.mk 0 p (c1 :: c2 :: rest))
      rw [compressed_mk]
      exact ⟨fun _ => by simp, hc.2⟩
  · intro isRoot r p cs key h1 h2 hr0 hr1 hc hr
    rw [rmNode_exact_many isRoot r p cs key h1 h2 (by omega)]
    show compressed (.mk (r - 1) p cs)
    rw [compressed_mk] at hc ⊢
    exact ⟨by omega, hc.2⟩
  · intro isRoot r p cs key h1 b bs h2 hnone IH hc hr
    rw [rmNode_descend_none isRoot r p cs key b bs h1 h2 hnone]
    exact hc
  · intro isRoot r p cs key h1 b bs h2 res hres IH hc hr
    subst hr
    rw [rmNode_descend_some false r p cs key b bs res h1 h2 hres]
    rw [compressed_mk] at hc
    have HIH := IH hc.2
    rw [hres] at HIH
    obtain ⟨hcc, hlenf, hlent⟩ := HIH
    show compressed (fixupNode false r p res.unlinked res.children)
    match hcs : res.children with
    | [] =>
      rw [fixupNode_nil, compressed_mk]
      refine ⟨?_, trivial⟩
      intro hzero
      have := hc.1 hzero
      rw [hcs] at hlenf hlent
      cases hu : res.unlinked with
      | false =>
        have := hlenf hu
        simp at this
        omega
      | true =>
        have := hlent hu
        simp at this
        omega
    | [ch2] =>
      rw [fixupNode_single]
      by_cases hcond : (false : Bool) = false ∧ res.unlinked = true ∧ r = 0
      · rw [if_pos hcond]
        rw [hcs, compressedChildren_cons] at hcc
        exact compressed_merge p ch2 hcc.1
      · rw [if_neg hcond, compressed_mk]
        refine ⟨?_, by rw [← hcs]; exact hcc⟩
        intro hzero
        have h2le := hc.1 hzero
        cases hu : res.unlinked with
        | false =>
          have := hlenf hu
          rw [hcs] at this
          simp at this
          omega
        | true => exact absurd ⟨rfl, hu, hzero⟩ hcond
    | c1 :: c2 :: rest =>
      rw [fixupNode_junction, compressed_mk]
      refine ⟨fun _ => by simp, by rw [← hcs]; exact hcc⟩
  · intro isRoot r p cs key h1 hc hr
    rw [rmNode_outside isRoot r p cs key h1]
    exact hc
  · intro key hc
    rw [rmChildren_nil]
    trivial
  · intro ch cs key h rem en ch' hch IH hc
    rw [rmChildren_cons_match_some ch cs key rem en ch' h hch]
    rw [compressedChildren_cons] at hc
    have HIH := IH hc.1 rfl
    rw [hch] at HIH
    have HIH2 : compressed ch' := HIH
    refine ⟨by rw [compressedChildren_cons]; exact ⟨HIH2, hc.2⟩, by simp,
      fun hcon => by simp at hcon⟩
  · intro ch cs key h rem en hch IH hc
    rw [rmChildren_cons_match_none ch cs key rem en h hch]
    rw [compressedChildren_cons] at hc
    exact ⟨hc.2, fun hcon => by simp at hcon, fun _ => by simp⟩
  · intro ch cs key h res0 hres0 IH hc
    rw [rmChildren_cons_skip_some ch cs key res0 h hres0]
    rw [compressedChildren_cons] at hc
    have HIH := IH hc.2
    rw [hres0] at HIH
    obtain ⟨hcc, hlenf, hlent⟩ := HIH
    refine ⟨by rw [compressedChildren_cons]; exact ⟨hc.1, hcc⟩, ?_, ?_⟩
    · intro hu
      simp only [List.length_cons]
      rw [hlenf hu]
    · intro hu
      simp only [List.length_cons]
      have := hlent hu
      omega
  · intro ch cs key h hnone IH hc
    rw [rmChildren_cons_skip_none ch cs key h hnone]
    trivial

/-- The list-level companion of `rm_compressed`. -/
theorem rmChildren_compressed (cs : List RNode) (key : List Byte) (res : RmCRes)
    (hc : compressedChildren cs) (hres : rmChildren cs key = some res) :
    compressedChildren res.children := by
  induction cs generalizing res with
  | nil =>
    rw [rmChildren_nil] at hres
    exact absurd hres (by simp)
  | cons ch cs ih =>
    rw [compressedChildren_cons] at hc
    by_cases h : ch.pre.head? = key.head?
    · rcases hch : rmNode false ch key with ⟨rem, en, _ | ch'⟩
      · rw [rmChildren_cons_match_none ch cs key rem en h hch] at hres
        have hres' : res = ⟨rem, en, true, cs⟩ := by
          injection hres with h'
          exact h'.symm
        subst hres'
        exact hc.2
      · rw [rmChildren_cons_match_some ch cs key rem en ch' h hch] at hres
        have hres' : res = ⟨rem, en, false, ch' :: cs⟩ := by
          injection hres with h'
          exact h'.symm
        subst hres'
        have hch' : compressed ch' := by
          have := rm_compressed false ch key hc.1 rfl
          rw [hch] at this
          exact this
        show compressedChildren (ch' :: cs)
        rw [compressedChildren_cons]
        exact ⟨hch', hc.2⟩
    · cases hres0 : rmChildren cs key with
      | none =>
        rw [rmChildren_cons_skip_none ch cs key h hres0] at hres
        exact absurd hres (by simp)
      | some res0 =>
        rw [rmChildren_cons_skip_some ch cs key res0 h hres0] at hres
        have hres' : res = ⟨res0.removed, res0.ended, res0.unlinked, ch :: res0.children⟩ := by
          injection hres with h'
          exact h'.symm
        subst hres'
        show compressedChildren (ch :: res0.children)
        rw [compressedChildren_cons]
        exact ⟨hc.1, ih res0 hc.2 hres0⟩

/-- Removal preserves the structural invariant at the root: the root is
retained and every node below it stays compressed. -/
theorem rm_rootCompressed (n : RNode) (key : List Byte) (hpre : n.pre = [])
    (hc : rootCompressed n) :
    (match (rmNode true n key).result with
     | some n' => rootCompressed n'
     | none => False) := by
  obtain ⟨r, p, cs⟩ := n
  simp only [RNode.pre_mk] at hpre
  subst hpre
  rw [rootCompressed_mk] at hc
  have h1 : lcp [] key = List.length ([] : List Byte) := by simp
  cases hd : key.drop (lcp [] key) with
  | nil =>
    match r with
    | 0 =>
      rw [rmNode_exact_zero true [] cs key h1 hd]
      show rootCompressed (.mk 0 [] cs)
      rw [rootCompressed_mk]
      exact hc
    | 1 =>
      rw [rmNode_exact_one true [] cs key h1 hd, deleteOrMerge_root]
      show rootCompressed (.mk 0 [] cs)
      rw [rootCompressed_mk]
      exact hc
    | (m + 2) =>
      rw [rmNode_exact_many true (m + 2) [] cs key h1 hd (by omega)]
      show rootCompressed (.mk (m + 2 - 1) [] cs)
      rw [rootCompressed_mk]
      exact hc
  | cons b bs =>
    cases hres : rmChildren cs (b :: bs) with
    | none =>
      rw [rmNode_descend_none true r [] cs key b bs h1 hd hres]
      show rootCompressed (.mk r [] cs)
      rw [rootCompressed_mk]
      exact hc
    | some res =>
      rw [rmNode_descend_some true r [] cs key b bs res h1 hd hres]
      show rootCompressed (fixupNode true r [] res.unlinked res.children)
      rw [fixup_root, rootCompressed_mk]
      exact rmChildren_compressed cs (b :: bs) res hc hres

/-! ## Enumeration: membership and uniqueness -/

theorem applyChildren_mem_exists (buf : List Byte) (cs : List RNode)
    (k : List Byte) (hk : k ∈ applyChildren buf cs) :
    ∃ c ∈ cs, k ∈ applyNode buf c := by
  induction cs with
  | nil => simp at hk
  | cons ch cs ih =>
    rw [applyChildren_cons, List.mem_append] at hk
    rcases hk with hk | hk
    · exact ⟨ch, by simp, hk⟩
    · obtain ⟨c, hc, hc2⟩ := ih hk
      exact ⟨c, by simp [hc], hc2⟩

theorem apply_mem_pre (buf : List Byte) (n : RNode) :
    ∀ k ∈ applyNode buf n, ∃ s, k = buf ++ n.pre ++ s := by
  refine applyNode.induct
      (fun buf n => ∀ k ∈ applyNode buf n, ∃ s, k = buf ++ n.pre ++ s)
      (fun buf cs => ∀ k ∈ applyChildren buf cs, ∃ c ∈ cs, ∃ s, k = buf ++ c.pre ++ s)
      ?_ ?_ ?_ buf n
  · intro buf r p cs IH k hk
    rw [applyNode_mk, List.mem_append] at hk
    rcases hk with hk | hk
    · refine ⟨[], ?_⟩
      rcases Nat.eq_zero_or_pos r with hr | hr
      · rw [hr] at hk
        simp at hk
      · rw [if_pos hr] at hk
        simp only [List.mem_singleton] at hk
        rw [hk]
        simp
    · obtain ⟨c, hc, s, hs⟩ := IH k hk
      refine ⟨c.pre ++ s, ?_⟩
      rw [hs]
      simp [List.append_assoc]
  · intro buf k hk
    simp at hk
  · intro buf ch cs IH1 IH2 k hk
    rw [applyChildren_cons, List.mem_append] at hk
    rcases hk with hk | hk
    · obtain ⟨s, hs⟩ := IH1 k hk
      exact ⟨ch, by simp, s, hs⟩
    · obtain ⟨c, hc, s, hs⟩ := IH2 k hk
      exact ⟨c, by simp [hc], s, hs⟩

theorem apply_nodup (buf : List Byte) (n : RNode) (hwf : wfNode n) :
    (applyNode buf n).Nodup := by
  refine applyNode.induct
      (fun buf n => wfNode n → (applyNode buf n).Nodup)
      (fun buf cs => wfChildren cs → (cs.map fun ch => ch.pre.head?).Nodup →
        (applyChildren buf cs).Nodup)
      ?_ ?_ ?_ buf n hwf
  · intro buf r p cs IH hwf'
    rw [wfNode_mk] at hwf'
    rw [applyNode_mk]
    rcases Nat.eq_zero_or_pos r with hr | hr
    · rw [hr]
      simpa using IH hwf'.1 hwf'.2
    · rw [if_pos hr]
      rw [List.singleton_append, List.nodup_cons]
      refine ⟨?_, IH hwf'.1 hwf'.2⟩
      intro hmem
      obtain ⟨c, hc, hcmem⟩ := applyChildren_mem_exists (buf ++ p) cs _ hmem
      obtain ⟨s, hs⟩ := apply_mem_pre (buf ++ p) c _ hcmem
      have hstep : (buf ++ p) ++ [] = (buf ++ p) ++ (c.pre ++ s) := by
        rw [List.append_nil]
        rw [List.append_assoc] at hs
        exact hs
      have hnil := List.append_cancel_left hstep
      have hcpre : c.pre ≠ [] := ((wfChildren_forall cs).1 hwf'.1 c hc).1
      cases hcp : c.pre with
      | nil => exact hcpre hcp
      | cons a as =>
        rw [hcp] at hnil
        simp at hnil
  · intro buf hwf' hnd
    simp
  · intro buf ch cs IH1 IH2 hwf' hnd
    rw [wfChildren_cons] at hwf'
    rw [List.map_cons, List.nodup_cons] at hnd
    rw [applyChildren_cons, List.nodup_append]
    refine ⟨IH1 hwf'.2.1, IH2 hwf'.2.2 hnd.2, ?_⟩
    intro k hk1 hk2
    obtain ⟨s1, hs1⟩ := apply_mem_pre buf ch k hk1
    obtain ⟨c, hc, hcmem⟩ := applyChildren_mem_exists buf cs k hk2
    obtain ⟨s2, hs2⟩ := apply_mem_pre buf c k hcmem
    have heq : ch.pre ++ s1 = c.pre ++ s2 := by
      have := hs1.symm.trans hs2
      rw [List.append_assoc, List.append_assoc] at this
      exact List.append_cancel_left this
    have hpp : ch.pre.head? = c.pre.head? := by
      have hchpre := hwf'.1
      have hcpre : c.pre ≠ [] := ((wfChildren_forall cs).1 hwf'.2.2 c hc).1
      rw [← head?_append_left ch.pre s1 hchpre, ← head?_append_left c.pre s2 hcpre,
        heq]
    exact hnd.1 (by rw [hpp]; exact List.mem_map_of_mem _ hc)

theorem apply_mem_key (buf key : List Byte) (c : RNode)
    (h : (buf ++ key) ∈ applyNode buf c) : ∃ s, key = c.pre ++ s := by
  obtain ⟨s, hs⟩ := apply_mem_pre buf c _ h
  rw [List.append_assoc] at hs
  exact ⟨s, List.append_cancel_left hs⟩

theorem applyChildren_mem_key (buf key : List Byte) (cs : List RNode)
    (h : (buf ++ key) ∈ applyChildren buf cs) :
    ∃ c ∈ cs, ∃ s, key = c.pre ++ s := by
  obtain ⟨c, hc, hcmem⟩ := applyChildren_mem_exists buf cs _ h
  obtain ⟨s, hs⟩ := apply_mem_key buf key c hcmem
  exact ⟨c, hc, s, hs⟩

/-- A key is enumerated exactly when its refcount is positive. -/
theorem mem_apply_iff (n : RNode) (hwf : wfNode n) (buf key : List Byte) :
    (buf ++ key) ∈ applyNode buf n ↔ 0 < rcNode n key := by
  refine applyNode.induct
      (fun buf n => wfNode n → ∀ key,
        ((buf ++ key) ∈ applyNode buf n ↔ 0 < rcNode n key))
      (fun buf cs => wfChildren cs → (cs.map fun ch => ch.pre.head?).Nodup →
        ∀ key, key ≠ [] →
          ((buf ++ key) ∈ applyChildren buf cs ↔ 0 < rcChildren cs key))
      ?_ ?_ ?_ buf n hwf key
  · intro buf r p cs IH hwf' key
    rw [wfNode_mk] at hwf'
    rw [applyNode_mk, List.mem_append]
    by_cases hp : lcp p key = p.length
    · cases hd : key.drop (lcp p key) with
      | nil =>
        have hk : key = p := by simpa using key_eq_of_drop p key [] hp hd
        rw [hk, rcNode_self]
        constructor
        · rintro (hm | hm)
          · rcases Nat.eq_zero_or_pos r with hr | hr
            · rw [hr] at hm
              simp at hm
            · exact hr
          · exfalso
            obtain ⟨c, hc, s, hs⟩ := applyChildren_mem_key (buf ++ p) [] cs
              (by rw [List.append_nil]; exact hm)
            have hcpre : c.pre ≠ [] := ((wfChildren_forall cs).1 hwf'.1 c hc).1
            cases hcp : c.pre with
            | nil => exact hcpre hcp
            | cons a as =>
              rw [hcp] at hs
              simp at hs
        · intro hr
          left
          rw [if_pos hr]
          simp
      | cons b bs =>
        have hkey : key = p ++ b :: bs := key_eq_of_drop p key (b :: bs) hp hd
        rw [hkey, rcNode_descend r p cs (b :: bs) (by simp)]
        have hassoc : buf ++ (p ++ b :: bs) = (buf ++ p) ++ (b :: bs) := by
          rw [List.append_assoc]
        rw [hassoc]
        constructor
        · rintro (hm | hm)
          · exfalso
            rcases Nat.eq_zero_or_pos r with hr | hr
            · rw [hr] at hm
              simp at hm
            · rw [if_pos hr] at hm
              simp only [List.mem_singleton] at hm
              have hlen := congrArg List.length hm
              simp at hlen
          · exact (IH hwf'.1 hwf'.2 (b :: bs) (by simp)).1 hm
        · intro hr
          right
          exact (IH hwf'.1 hwf'.2 (b :: bs) (by simp)).2 hr
    · rw [rcNode_outside r p cs key hp]
      constructor
      · rintro (hm | hm)
        · exfalso
          rcases Nat.eq_zero_or_pos r with hr | hr
          · rw [hr] at hm
            simp at hm
          · rw [if_pos hr] at hm
            simp only [List.mem_singleton] at hm
            have hk : key = p := List.append_cancel_left hm
            rw [hk, lcp_self] at hp
            exact hp rfl
        · exfalso
          obtain ⟨c, hc, hcm⟩ := applyChildren_mem_exists (buf ++ p) cs _ hm
          obtain ⟨s, hs⟩ := apply_mem_pre (buf ++ p) c _ hcm
          have hk : key = p ++ (c.pre ++ s) := by
            have h2 : buf ++ key = buf ++ (p ++ (c.pre ++ s)) := by
              rw [hs]
              simp [List.append_assoc]
            exact List.append_cancel_left h2
          exact hp (by rw [hk]; exact lcp_append_self p (c.pre ++ s))
      · intro hr
        omega
  · intro buf hwf' hnd key hne
    simp
  · intro buf ch cs IH1 IH2 hwf' hnd key hne
    rw [wfChildren_cons] at hwf'
    rw [List.map_cons, List.nodup_cons] at hnd
    rw [applyChildren_cons, List.mem_append, rcChildren_cons]
    by_cases h : ch.pre.head? = key.head?
    · rw [if_pos h]
      constructor
      · rintro (hm | hm)
        · exact (IH1 hwf'.2.1 key).1 hm
        · exfalso
          obtain ⟨c, hc, s, hs⟩ := applyChildren_mem_key buf key cs hm
          have hcpre : c.pre ≠ [] := ((wfChildren_forall cs).1 hwf'.2.2 c hc).1
          have : c.pre.head? = key.head? := by
            rw [hs, head?_append_left c.pre s hcpre]
          exact hnd.1 (by rw [h.trans this.symm]; exact List.mem_map_of_mem _ hc)
      · intro hr
        left
        exact (IH1 hwf'.2.1 key).2 hr
    · rw [if_neg h]
      constructor
      · rintro (hm | hm)
        · exfalso
          obtain ⟨s, hs⟩ := apply_mem_key buf key ch hm
          exact h (by rw [hs, head?_append_left ch.pre s hwf'.1])
        · exact (IH2 hwf'.2.2 hnd.2 key hne).1 hm
      · intro hr
        right
        exact (IH2 hwf'.2.2 hnd.2 key hne).2 hr

/-! ## Tree-level lemmas -/

theorem TreeInv_empty : TreeInv RTree.empty := by
  refine ⟨rfl, ?_, ?_, ?_⟩
  · rw [RTree.empty]
    show wfNode (.mk 0 [] [])
    rw [wfNode_mk]
    simp
  · rw [RTree.empty]
    show rootCompressed (.mk 0 [] [])
    rw [rootCompressed_mk]
    simp
  · rw [RTree.empty]
    show 0 = (applyNode [] (.mk 0 [] [])).length
    rw [applyNode_mk]
    simp

theorem check_eq_refcount (t : RTree) (k : List Byte) :
    t.check k = decide (0 < t.refcount k) := rfl

theorem add_snd_root (t : RTree) (k : List Byte) :
    (t.add k).2.root = (addNode t.root k).2 := rfl

theorem add_refcount (t : RTree) (k k' : List Byte) :
    (t.add k).2.refcount k' =
      if k' = k then t.refcount k + 1 else t.refcount k' :=
  add_rc t.root k k'

theorem add_fst (t : RTree) (k : List Byte) :
    (t.add k).1 = decide (t.refcount k = 0) :=
  add_flag t.root k

theorem add_size (t : RTree) (k : List Byte) :
    (t.add k).2.size = t.size + if t.refcount k = 0 then 1 else 0 := by
  show t.size + (if (addNode t.root k).1 then 1 else 0) = _
  rw [add_flag t.root k]
  by_cases h : t.refcount k = 0
  · have h' : rcNode t.root k = 0 := h
    rw [if_pos h, if_pos (decide_eq_true h')]
  · have h' : ¬rcNode t.root k = 0 := h
    rw [if_neg h, if_neg (by simpa using h')]

theorem TreeInv_add (t : RTree) (k : List Byte) (h : TreeInv t) : TreeInv (t.add k).2 := by
  obtain ⟨hpre, hwf, hcomp, hsz⟩ := h
  refine ⟨add_pre_nil t.root k hpre, add_wf t.root k hwf,
    add_rootCompressed t.root k hpre hcomp, ?_⟩
  rw [add_snd_root, add_size t k, hsz]
  by_cases hrc : t.refcount k = 0
  · rw [if_pos hrc]
    have hperm := add_keys_new t.root k [] hrc
    rw [hperm.length_eq]
    simp [Nat.add_comm]
  · rw [if_neg hrc]
    rw [add_keys_dup t.root k [] (Nat.pos_of_ne_zero hrc)]
    simp

theorem rm_root_some (t : RTree) (k : List Byte) (hwf : wfNode t.root) :
    ∃ n', (rmNode true t.root k).result = some n' := by
  cases hres : (rmNode true t.root k).result with
  | some n' => exact ⟨n', rfl⟩
  | none =>
    have hmain := rm_main true t.root k hwf
    rw [hres] at hmain
    obtain ⟨_, _, hfalse, _⟩ := hmain
    simp at hfalse

theorem rm_snd_root (t : RTree) (k : List Byte) :
    (t.rm k).2.root = ((rmNode true t.root k).result).getD t.root := rfl

theorem rm_fst (t : RTree) (k : List Byte) (hwf : wfNode t.root) :
    (t.rm k).1 = decide (0 < t.refcount k) :=
  (rm_main true t.root k hwf).1

theorem rm_size (t : RTree) (k : List Byte) (hwf : wfNode t.root) :
    (t.rm k).2.size = t.size - if t.refcount k = 1 then 1 else 0 := by
  show t.size - (if (rmNode true t.root k).ended then 1 else 0) = _
  rw [(rm_main true t.root k hwf).2.1]
  by_cases h : t.refcount k = 1
  · have h' : rcNode t.root k = 1 := h
    rw [if_pos h, if_pos (decide_eq_true h')]
  · have h' : ¬rcNode t.root k = 1 := h
    rw [if_neg h, if_neg (by simpa using h')]

theorem rm_refcount (t : RTree) (k k' : List Byte) (hwf : wfNode t.root) :
    (t.rm k).2.refcount k' =
      if k' = k then t.refcount k - 1 else t.refcount k' := by
  obtain ⟨n', hres⟩ := rm_root_some t k hwf
  have hmain := rm_main true t.root k hwf
  rw [hres] at hmain
  obtain ⟨_, _, hrc, _, _, _⟩ := hmain
  show rcNode ((rmNode true t.root k).result.getD t.root) k' = _
  rw [hres]
  exact hrc k'

theorem TreeInv_rm (t : RTree) (k : List Byte) (h : TreeInv t) : TreeInv (t.rm k).2 := by
  obtain ⟨hpre, hwf, hcomp, hsz⟩ := h
  obtain ⟨n', hres⟩ := rm_root_some t k hwf
  have hmain := rm_main true t.root k hwf
  rw [hres] at hmain
  obtain ⟨_, _, _, hwf', _, hpre'⟩ := hmain
  have hroot : (t.rm k).2.root = n' := by
    rw [rm_snd_root, hres]
    rfl
  have hcomp' := rm_rootCompressed t.root k hpre hcomp
  rw [hres] at hcomp'
  refine ⟨by rw [hroot, hpre' rfl]; exact hpre, by rw [hroot]; exact hwf',
    by rw [hroot]; exact hcomp', ?_⟩
  have hkeys := rm_keys true t.root k hwf []
  rw [hres] at hkeys
  have hkeys2 : if rcNode t.root k = 1 then
      List.Perm (applyNode [] t.root) (([] ++ k) :: applyNode [] n')
    else applyNode [] n' = applyNode [] t.root := hkeys
  rw [rm_size t k hwf, hroot, hsz]
  by_cases hone : t.refcount k = 1
  · have hone' : rcNode t.root k = 1 := hone
    rw [if_pos hone]
    rw [if_pos hone'] at hkeys2
    rw [hkeys2.length_eq]
    simp
  · have hone' : ¬rcNode t.root k = 1 := hone
    rw [if_neg hone]
    rw [if_neg hone'] at hkeys2
    rw [hkeys2]
    simp

theorem TreeInv_runTree (ops : List Op) : TreeInv (runTree ops) := by
  rw [runTree]
  induction ops using List.reverseRecOn with
  | nil => exact TreeInv_empty
  | append_singleton ops op ih =>
    rw [List.foldl_append, List.foldl_cons, List.foldl_nil]
    cases op with
    | add k => exact TreeInv_add _ k ih
    | del k => exact TreeInv_rm _ k ih

/-- The refcount function of a run agrees with the multiplicity of the
reference bag of the same workload. -/
theorem runTree_refcount (ops : List Op) (k : List Byte) :
    (runTree ops).refcount k = (runBag ops).count k := by
  rw [runTree, runBag]
  induction ops using List.reverseRecOn with
  | nil =>
    simp only [List.foldl_nil, RTree.empty, RTree.refcount, rcNode_mk]
    cases k <;> simp
  | append_singleton ops op ih =>
    rw [List.foldl_append, List.foldl_cons, List.foldl_nil,
      List.foldl_append, List.foldl_cons, List.foldl_nil]
    have hwf : wfNode (List.foldl stepT RTree.empty ops).root :=
      (TreeInv_runTree ops).2.1
    cases op with
    | add k0 =>
      show (RTree.add _ k0).2.refcount k = _
      rw [add_refcount]
      show _ = Multiset.count k (k0 ::ₘ _)
      by_cases he : k = k0
      · rw [he] at ih
        rw [if_pos he, he, Multiset.count_cons_self, ih]
      · rw [if_neg he, Multiset.count_cons_of_ne he, ih]
    | del k0 =>
      show (RTree.rm _ k0).2.refcount k = _
      rw [rm_refcount _ _ _ hwf]
      show _ = Multiset.count k (Multiset.erase _ k0)
      by_cases he : k = k0
      · rw [he] at ih
        rw [if_pos he, he, Multiset.count_erase_self, ih]
      · rw [if_neg he, Multiset.count_erase_of_ne he, ih]

/-! ## Concrete evaluation checks -/

-- sanity checks (concrete evaluation)
example : (RTree.empty.add [97, 98, 99]).1 = true := by decide
example : ((RTree.empty.add [1, 2]).2.check [1, 2]) = true := by decide
example : ((RTree.empty.add [1, 2]).2.check [1]) = false := by decide
example :
    (runTree [Op.add [97, 98, 99], Op.add [97, 98, 100]]).root
      = .mk 0 [] [.mk 0 [97, 98] [.mk 1 [99] [], .mk 1 [100] []]] := by rfl
example : (runTree [Op.add [1], Op.add [1, 2], Op.del [1]]).root
      = .mk 0 [] [.mk 1 [1, 2] []] := by rfl
example : (runTree [Op.add [1], Op.add [1, 2], Op.del [1]]).size = 1 := by rfl
example : (runTree [Op.add [1, 2], Op.add [1, 3], Op.del [1, 2]]).root
      = .mk 0 [] [.mk 1 [1, 3] []] := by rfl
example : (RTree.empty.rm [5]).1 = false := by rfl
example : (runTree [Op.add [7], Op.add [7]]).size = 1 := by rfl
example : ((runTree [Op.add [7], Op.add [7]]).rm [7]).1 = true := by rfl
example : (runTree [Op.add [7], Op.add [7], Op.del [7]]).size = 1 := by rfl
example : (runTree [Op.add [1, 2], Op.add [1, 3]]).applyList
      = [[1, 2], [1, 3]] := by rfl

/-! ## Supporting lemmas for the claims -/

theorem check_mem_applyList (t : RTree) (h : TreeInv t) (k : List Byte) :
    k ∈ t.applyList ↔ t.check k = true := by
  rw [RTree.applyList, RTree.check]
  have := mem_apply_iff t.root h.2.1 [] k
  rw [List.nil_append] at this
  rw [this]
  simp

theorem size_pos_of_refcount (t : RTree) (h : TreeInv t) (k : List Byte)
    (hrc : 0 < t.refcount k) : 0 < t.size := by
  rw [h.2.2.2]
  have hm := (mem_apply_iff t.root h.2.1 [] k).2 hrc
  exact List.length_pos.2 (List.ne_nil_of_mem hm)

theorem rmIter_treeInv (t : RTree) (k : List Byte) (h : TreeInv t) (i : Nat) :
    TreeInv (rmIter t k i) := by
  induction i with
  | zero => exact h
  | succ i ih => exact TreeInv_rm _ k ih

theorem rmIter_refcount (t : RTree) (k : List Byte) (h : TreeInv t) (i : Nat) :
    (rmIter t k i).refcount k = t.refcount k - i := by
  induction i with
  | zero => simp [rmIter]
  | succ i ih =>
    show ((rmIter t k i).rm k).2.refcount k = _
    rw [rm_refcount _ _ _ (rmIter_treeInv t k h i).2.1, if_pos rfl, ih]
    omega

theorem rmIter_size_lt (t : RTree) (k : List Byte) (h : TreeInv t) (i : Nat)
    (hi : i < t.refcount k) : (rmIter t k i).size = t.size := by
  induction i with
  | zero => rfl
  | succ i ih =>
    show ((rmIter t k i).rm k).2.size = _
    rw [rm_size _ _ (rmIter_treeInv t k h i).2.1,
      rmIter_refcount t k h i, if_neg (by omega), ih (by omega)]
    simp

theorem rmIter_size_last (t : RTree) (k : List Byte) (h : TreeInv t)
    (hn : 1 ≤ t.refcount k) :
    (rmIter t k (t.refcount k)).size + 1 = t.size := by
  obtain ⟨m, hm⟩ : ∃ m, t.refcount k = m + 1 := ⟨t.refcount k - 1, by omega⟩
  rw [hm]
  show ((rmIter t k m).rm k).2.size + 1 = _
  have hiv := rmIter_treeInv t k h m
  rw [rm_size _ _ hiv.2.1, rmIter_refcount t k h m, hm,
    if_pos (by omega), rmIter_size_lt t k h m (by omega)]
  have hpos : 0 < (rmIter t k m).size := by
    refine size_pos_of_refcount _ hiv k ?_
    rw [rmIter_refcount t k h m, hm]
    omega
  rw [rmIter_size_lt t k h m (by omega)] at hpos
  omega

/-! ## The claims -/

/-- C1: for every workload of add/remove operations starting from the
empty tree, `check k` agrees with the reference bag's multiplicity being
positive, and `size` equals the number of distinct keys with positive
multiplicity. -/
theorem C1_round_trip_under_churn (ops : List Op) (k : List Byte) :
    ((runTree ops).check k = true ↔ 0 < (runBag ops).count k) ∧
    (runTree ops).size = (runBag ops).toFinset.card := by
  have hinv := TreeInv_runTree ops
  constructor
  · rw [RTree.check]
    rw [show rcNode (runTree ops).root k = (runTree ops).refcount k from rfl,
      runTree_refcount ops k]
    simp
  · have hnodup : (runTree ops).applyList.Nodup :=
      apply_nodup [] (runTree ops).root hinv.2.1
    have hfin : (runTree ops).applyList.toFinset = (runBag ops).toFinset := by
      ext x
      rw [List.mem_toFinset, Multiset.mem_toFinset,
        check_mem_applyList _ hinv x, RTree.check, ← Multiset.count_pos,
        ← runTree_refcount ops x]
      simp [RTree.refcount]
    calc (runTree ops).size = (runTree ops).applyList.length := hinv.2.2.2
      _ = (runTree ops).applyList.toFinset.card :=
          (List.toFinset_card_of_nodup hnodup).symm
      _ = (runBag ops).toFinset.card := by rw [hfin]

/-- C2: `add k` returns true exactly when `k` was absent; on an absent
key, adding it twice returns true then false and grows `size` by exactly
one in total.  This holds for every tree state. -/
theorem C2_add_new_iff_absent (t : RTree) (k : List Byte) :
    ((t.add k).1 = !t.check k) ∧
    (t.check k = false →
      (t.add k).1 = true ∧ ((t.add k).2.add k).1 = false ∧
        ((t.add k).2.add k).2.size = t.size + 1) := by
  have hflag : (t.add k).1 = decide (t.refcount k = 0) := add_fst t k
  constructor
  · rw [hflag, RTree.check]
    rcases Nat.eq_zero_or_pos (t.refcount k) with hr | hr
    · have hr' : rcNode t.root k = 0 := hr
      simp [hr', RTree.refcount]
    · have hr' : 0 < rcNode t.root k := hr
      simp only [RTree.refcount] at *
      simp [hr']
      omega
  · intro hchk
    have hrc : t.refcount k = 0 := by
      rw [RTree.check] at hchk
      simpa using hchk
    refine ⟨by rw [hflag, hrc]; rfl, ?_, ?_⟩
    · rw [add_fst, add_refcount, if_pos rfl, hrc]
      simp
    · rw [add_size, add_refcount, if_pos rfl, hrc, add_size, hrc]
      simp

/-- Witness for C2 at a concrete input. -/
theorem C2_add_new_iff_absent_witness :
    RTree.empty.check [0] = false ∧
    ((RTree.empty.add [0]).1 = true ∧ ((RTree.empty.add [0]).2.add [0]).1 = false ∧
      ((RTree.empty.add [0]).2.add [0]).2.size = RTree.empty.size + 1) :=
  ⟨by decide, (C2_add_new_iff_absent RTree.empty [0]).2 (by decide)⟩

/-- C3: if `k` has refcount `n ≥ 1` in a reachable tree, each of the
first `n − 1` removals returns true and leaves `size` unchanged, `check`
stays true before the `n`-th removal, and exactly the `n`-th removal
drops `size` by one and ends the key's presence. -/
theorem C3_refcounted_removal (ops : List Op) (k : List Byte) (i : Nat)
    (hn : 1 ≤ (runTree ops).refcount k) (hi : i < (runTree ops).refcount k) :
    ((rmIter (runTree ops) k i).rm k).1 = true ∧
    (rmIter (runTree ops) k i).check k = true ∧
    (i + 1 < (runTree ops).refcount k →
      (rmIter (runTree ops) k (i + 1)).size = (runTree ops).size) ∧
    (rmIter (runTree ops) k ((runTree ops).refcount k)).size + 1
      = (runTree ops).size ∧
    (rmIter (runTree ops) k ((runTree ops).refcount k)).check k = false := by
  have hinv := TreeInv_runTree ops
  have hiv := rmIter_treeInv (runTree ops) k hinv i
  have hrc : (rmIter (runTree ops) k i).refcount k
      = (runTree ops).refcount k - i := rmIter_refcount _ k hinv i
  refine ⟨?_, ?_, ?_, rmIter_size_last _ k hinv hn, ?_⟩
  · rw [rm_fst _ _ hiv.2.1, hrc]
    simp
    omega
  · rw [RTree.check]
    have : 0 < (rmIter (runTree ops) k i).refcount k := by omega
    simpa using this
  · intro hi1
    exact rmIter_size_lt _ k hinv (i + 1) hi1
  · rw [RTree.check]
    have : (rmIter (runTree ops) k ((runTree ops).refcount k)).refcount k = 0 := by
      rw [rmIter_refcount _ k hinv]
      omega
    simpa using this

/-- Witness for C3 at a concrete input. -/
theorem C3_refcounted_removal_witness :
    1 ≤ (runTree [Op.add [0], Op.add [0]]).refcount [0] ∧
    0 < (runTree [Op.add [0], Op.add [0]]).refcount [0] ∧
    (((rmIter (runTree [Op.add [0], Op.add [0]]) [0] 0).rm [0]).1 = true ∧
      (rmIter (runTree [Op.add [0], Op.add [0]]) [0] 0).check [0] = true ∧
      (0 + 1 < (runTree [Op.add [0], Op.add [0]]).refcount [0] →
        (rmIter (runTree [Op.add [0], Op.add [0]]) [0] (0 + 1)).size
          = (runTree [Op.add [0], Op.add [0]]).size) ∧
      (rmIter (runTree [Op.add [0], Op.add [0]]) [0]
          ((runTree [Op.add [0], Op.add [0]]).refcount [0])).size + 1
        = (runTree [Op.add [0], Op.add [0]]).size ∧
      (rmIter (runTree [Op.add [0], Op.add [0]]) [0]
          ((runTree [Op.add [0], Op.add [0]]).refcount [0])).check [0] = false) :=
  ⟨by decide, by decide,
    C3_refcounted_removal [Op.add [0], Op.add [0]] [0] 0 (by decide) (by decide)⟩

/-- C4 counterexample: after adding a key twice, a single `remove`
returns true even though the key remains present (its refcount dropped
from 2 to 1, not to 0), refuting "returns true iff this call caused its
refcount to drop to 0". -/
theorem C4_counterexample :
    ((runTree [Op.add [0], Op.add [0]]).rm [0]).1 = true ∧
    ((runTree [Op.add [0], Op.add [0]]).rm [0]).2.check [0] = true := by
  constructor <;> decide

/-- C4 (amended): `remove k` returns true iff `k` was present before the
call (the operation applied, spec 4.3 step 3); it returns false exactly
when `k` was absent. -/
theorem C4_rm_true_iff_present (ops : List Op) (k : List Byte) :
    ((runTree ops).rm k).1 = (runTree ops).check k := by
  rw [rm_fst _ _ (TreeInv_runTree ops).2.1, RTree.check]
  rfl

/-- C5: removing an absent key returns false and leaves the tree
completely unchanged — the state, every membership answer and the
enumerated key set are as before. -/
theorem C5_rm_absent_noop (t : RTree) (k : List Byte) (h : t.check k = false) :
    ((t.rm k).1 = false ∧ (t.rm k).2 = t) ∧
    (t.rm k).2.size = t.size ∧
    (∀ k', (t.rm k).2.check k' = t.check k') ∧
    (t.rm k).2.applyList = t.applyList := by
  have hrc : rcNode t.root k = 0 := by
    rw [RTree.check] at h
    simpa using h
  have hno := rm_noop true t.root k hrc
  have ht : (t.rm k).2 = t := by
    show (⟨((rmNode true t.root k).result).getD t.root,
      t.size - if (rmNode true t.root k).ended then 1 else 0⟩ : RTree) = t
    rw [hno]
    simp
  have hf : (t.rm k).1 = false := by
    show (rmNode true t.root k).removed = false
    rw [hno]
  exact ⟨⟨hf, ht⟩, by rw [ht], fun k' => by rw [ht], by rw [ht]⟩

/-- Witness for C5 at a concrete input. -/
theorem C5_rm_absent_noop_witness :
    RTree.empty.check [7] = false ∧
    (((RTree.empty.rm [7]).1 = false ∧ (RTree.empty.rm [7]).2 = RTree.empty) ∧
      (RTree.empty.rm [7]).2.size = RTree.empty.size ∧
      (∀ k', (RTree.empty.rm [7]).2.check k' = RTree.empty.check k') ∧
      (RTree.empty.rm [7]).2.applyList = RTree.empty.applyList) :=
  ⟨by decide, C5_rm_absent_noop RTree.empty [7] (by decide)⟩

/-- C6: after any workload, `apply` hands the callback exactly the live
keys: no duplicates, membership agrees with `check`, and the number of
callback invocations equals `size`. -/
theorem C6_apply_enumerates_live_keys (ops : List Op) :
    (runTree ops).applyList.Nodup ∧
    (∀ k, k ∈ (runTree ops).applyList ↔ (runTree ops).check k = true) ∧
    (runTree ops).applyList.length = (runTree ops).size := by
  have hinv := TreeInv_runTree ops
  exact ⟨apply_nodup [] (runTree ops).root hinv.2.1,
    fun k => check_mem_applyList _ hinv k, hinv.2.2.2.symm⟩

/-- C7: after a removal on any reachable tree, every node below the
root satisfies "refcount 0 implies at least two outgoing edges" (no
reachable refcount-0 node has one or zero edges), and the root itself is
never pruned. -/
theorem C7_compression_invariant (ops : List Op) (k : List Byte) :
    rootCompressed ((runTree ops).rm k).2.root ∧
    (rmNode true (runTree ops).root k).result ≠ none := by
  have hinv := TreeInv_runTree ops
  obtain ⟨n', hres⟩ := rm_root_some (runTree ops) k hinv.2.1
  have hcomp := rm_rootCompressed (runTree ops).root k hinv.1 hinv.2.2.1
  rw [hres] at hcomp
  constructor
  · rw [rm_snd_root, hres]
    exact hcomp
  · rw [hres]
    simp

/-- C8: from the empty tree, adding "abc" then "abd" yields a root whose
single child holds the shared two-byte prefix "ab" with refcount 0 and
exactly two children, the one-byte suffixes "c" and "d", each with
refcount 1; both keys check true and `size` is 2. -/
theorem C8_divergence_split :
    (runTree [Op.add [97, 98, 99], Op.add [97, 98, 100]]).root =
      .mk 0 [] [.mk 0 [97, 98] [.mk 1 [99] [], .mk 1 [100] []]] ∧
    (runTree [Op.add [97, 98, 99], Op.add [97, 98, 100]]).check [97, 98, 99] = true ∧
    (runTree [Op.add [97, 98, 99], Op.add [97, 98, 100]]).check [97, 98, 100] = true ∧
    (runTree [Op.add [97, 98, 99], Op.add [97, 98, 100]]).size = 2 :=
  ⟨rfl, by decide, by decide, rfl⟩

/-- C9: immediately after `add k` (whatever it returned), `check k` is
true.  This holds for every tree state. -/
theorem C9_check_after_add (t : RTree) (k : List Byte) :
    (t.add k).2.check k = true := by
  rw [RTree.check]
  have h := add_refcount t k k
  rw [if_pos rfl] at h
  have : 0 < (t.add k).2.refcount k := by omega
  simpa using this

/-- C10: `check` is a pure membership query: the state after the call
has the same size, the same membership answers and the same enumeration
as before — the query performs no structural edit (it is modelled as
returning the unchanged tree because the source's read-only match mode
writes nothing). -/
theorem C10_check_pure (t : RTree) (k : List Byte) :
    (t.checkOp k).2.size = t.size ∧
    (∀ k', (t.checkOp k).2.check k' = t.check k') ∧
    (t.checkOp k).2.applyList = t.applyList ∧
    (t.checkOp k).2 = t :=
  ⟨rfl, fun _ => rfl, rfl, rfl⟩
